import Mathlib

set_option maxHeartbeats 1000000

/-!
# Verification of the Web-IFC based IFC importer (`code/AssetLib/IFC/IFCLoader.cpp`)

Shallow embedding of the scene-reconstruction pipeline of the IFC importer:
string decoding (`DecodeIFCString`), the color-material cache
(`GetOrCreateColorMaterial`), the lazy default-material insertion
(`ExtractGeometry`), the spatial-containment index
(`PopulateSpatialContainmentMap`), material-based mesh splitting
(`SplitMeshByMaterials`), planar UV generation
(`GenerateTextureCoordinates`), the spatial hierarchy and the mesh
assignment pass (`BuildIFCSpatialHierarchy` / `AssignMeshesToHierarchy`),
and the format recognizer (`CanRead`).

Byte strings handled by the C++ are modelled as `List Nat` (byte values);
machine floats of the source are modelled as rationals; the external
web-ifc entity store is abstracted by explicit argument data.
-/

namespace IFC

/-! ## Generic substring search

`findFrom pat s pos` models `std::string::find(pat, pos)`: the smallest
index `i ≥ pos` at which `pat` occurs in `s` (`none` playing the role of
`npos`). It is polymorphic so that it serves both the byte strings of
`DecodeIFCString` and the node-name searches of the hierarchy builder. -/

def findFrom {α : Type} [DecidableEq α] (pat s : List α) (pos : Nat) : Option Nat :=
  if s.length < pos then none
  else if pat.isPrefixOf (s.drop pos) then some pos
  else findFrom pat s (pos + 1)
termination_by s.length + 1 - pos

/-- `occursAt pat s i` : `pat` matches `s` at position `i`. -/
def occursAt {α : Type} [DecidableEq α] (pat s : List α) (i : Nat) : Prop :=
  pat <+: s.drop i

instance {α : Type} [DecidableEq α] (pat s : List α) (i : Nat) :
    Decidable (occursAt pat s i) := by
  unfold occursAt; infer_instance

/-- Occurrence anywhere, in the sense of `std::string::find(...) != npos`. -/
def containsPat {α : Type} [DecidableEq α] (pat s : List α) : Prop :=
  ∃ i, occursAt pat s i

theorem occursAt_lt_length {α : Type} [DecidableEq α] {pat s : List α} {i : Nat}
    (hpat : pat ≠ []) (h : occursAt pat s i) : i + pat.length ≤ s.length := by
  unfold occursAt at h
  have hlen : pat.length ≤ (s.drop i).length := h.length_le
  rw [List.length_drop] at hlen
  have hpos : 0 < pat.length := List.length_pos.mpr hpat
  omega

theorem findFrom_none {α : Type} [DecidableEq α] {pat s : List α} {pos : Nat}
    (hpat : pat ≠ []) (h : findFrom pat s pos = none) :
    ∀ i, pos ≤ i → ¬ occursAt pat s i := by
  induction pos using findFrom.induct pat s with
  | case1 pos hlt =>
    intro i hi hocc
    have := occursAt_lt_length hpat hocc
    have hpos : 0 < pat.length := List.length_pos.mpr hpat
    omega
  | case2 pos hlt hpre =>
    rw [findFrom, if_neg hlt, if_pos hpre] at h
    exact absurd h (by simp)
  | case3 pos hlt hpre ih =>
    rw [findFrom, if_neg hlt, if_neg hpre] at h
    intro i hi hocc
    rcases Nat.eq_or_lt_of_le hi with rfl | hi2
    · exact hpre (List.isPrefixOf_iff_prefix.mpr hocc)
    · exact ih h i hi2 hocc

theorem findFrom_some {α : Type} [DecidableEq α] {pat s : List α} {pos i : Nat}
    (h : findFrom pat s pos = some i) :
    pos ≤ i ∧ occursAt pat s i ∧ ∀ j, pos ≤ j → j < i → ¬ occursAt pat s j := by
  induction pos using findFrom.induct pat s with
  | case1 pos hlt =>
    rw [findFrom, if_pos hlt] at h
    exact absurd h (by simp)
  | case2 pos hlt hpre =>
    rw [findFrom, if_neg hlt, if_pos hpre] at h
    obtain rfl : pos = i := by simpa using h
    refine ⟨le_refl _, List.isPrefixOf_iff_prefix.mp hpre, ?_⟩
    intro j h1 h2; omega
  | case3 pos hlt hpre ih =>
    rw [findFrom, if_neg hlt, if_neg hpre] at h
    obtain ⟨h1, h2, h3⟩ := ih h
    refine ⟨by omega, h2, ?_⟩
    intro j hj1 hj2 hocc
    rcases Nat.eq_or_lt_of_le hj1 with rfl | hj3
    · exact hpre (List.isPrefixOf_iff_prefix.mpr hocc)
    · exact h3 j hj3 hj2 hocc

/-- Pointwise characterization of an occurrence. -/
theorem occursAt_iff_getElem {α : Type} [DecidableEq α] (pat s : List α) (i : Nat) :
    occursAt pat s i ↔ ∀ k, k < pat.length → pat[k]? = s[i + k]? := by
  unfold occursAt
  constructor
  · intro h k hk
    rw [List.prefix_iff_eq_take] at h
    conv_lhs => rw [h]
    rw [List.getElem?_take_of_lt hk, List.getElem?_drop]
  · intro h
    rw [List.prefix_iff_eq_take]
    apply List.ext_getElem?
    intro n
    by_cases hn : n < pat.length
    · rw [h n hn, List.getElem?_take_of_lt hn, List.getElem?_drop]
    · rw [List.getElem?_eq_none (by omega), List.getElem?_eq_none]
      simpa [List.length_take] using by omega

/-! ## String decoder (`IFCImporter::DecodeIFCString`)

The C++ replaces, pattern by pattern in source order, every occurrence of a
4-byte escape token `\S\<code>` by a 2-byte UTF-8 encoded character, using
`pos = result.find(pat, pos); result.replace(pos, 4, rep); pos += 1`.
Each rule records the facts used by `result.replace(pos, 4, ...)` (the
pattern is 4 bytes long) and the UTF-8 encodings (2 bytes, both ≥ 128,
while every pattern byte is ASCII < 128). -/

structure EscapeRule where
  pat : List Nat
  rep : List Nat
  pat_len : pat.length = 4
  rep_len : rep.length = 2
  pat_ascii : ∀ b ∈ pat, b < 128
  rep_high : ∀ b ∈ rep, 128 ≤ b

/-- `\S\d` → `ä` -/
def ruleAuml : EscapeRule :=
  ⟨[92, 83, 92, 100], [195, 164], by decide, by decide, by decide, by decide⟩

/-- `\S\|` → `ü` -/
def ruleUuml : EscapeRule :=
  ⟨[92, 83, 92, 124], [195, 188], by decide, by decide, by decide, by decide⟩

/-- `\S\_` → `ß` -/
def ruleSzlig : EscapeRule :=
  ⟨[92, 83, 92, 95], [195, 159], by decide, by decide, by decide, by decide⟩

/-- `\S\c` → `ö` -/
def ruleOuml : EscapeRule :=
  ⟨[92, 83, 92, 99], [195, 182], by decide, by decide, by decide, by decide⟩

/-- `\S\D` → `Ä` -/
def ruleAumlCap : EscapeRule :=
  ⟨[92, 83, 92, 68], [195, 132], by decide, by decide, by decide, by decide⟩

/-- `\S\\` → `Ü` -/
def ruleUumlCap : EscapeRule :=
  ⟨[92, 83, 92, 92], [195, 156], by decide, by decide, by decide, by decide⟩

/-- `\S\C` → `Ö` -/
def ruleOumlCap : EscapeRule :=
  ⟨[92, 83, 92, 67], [195, 150], by decide, by decide, by decide, by decide⟩

/-- The fixed escape table, in the order the source applies the rules. -/
def ifcEscapeTable : List EscapeRule :=
  [ruleAuml, ruleUuml, ruleSzlig, ruleOuml, ruleAumlCap, ruleUumlCap, ruleOumlCap]

/-- One `while ((pos = result.find(pat, pos)) != npos)` loop of
`DecodeIFCString`: replace the 4 pattern bytes at the match with the 2
replacement bytes and continue searching from `matchIndex + 1`. -/
def replaceEscape (r : EscapeRule) (s : List Nat) (pos : Nat) : List Nat :=
  match h : findFrom r.pat s pos with
  | none => s
  | some i => replaceEscape r (s.take i ++ r.rep ++ s.drop (i + 4)) (i + 1)
termination_by s.length
decreasing_by
  have hocc := (findFrom_some h).2.1
  have hpatne : r.pat ≠ [] := by
    intro hnil
    have h4 := r.pat_len
    rw [hnil] at h4
    simp at h4
  have hbound := occursAt_lt_length hpatne hocc
  rw [r.pat_len] at hbound
  rw [List.length_append, List.length_append, List.length_take, List.length_drop,
    r.rep_len, Nat.min_eq_left (by omega)]
  omega

/-- `IFCImporter::DecodeIFCString`: applies the seven replacement loops in
source order, each starting at position 0. -/
def decodeIFCString (s : List Nat) : List Nat :=
  ifcEscapeTable.foldl (fun acc r => replaceEscape r acc 0) s

/-- No occurrence of `pat` anywhere in `s`. -/
def cleanOf (pat s : List Nat) : Prop := ∀ i, ¬ occursAt pat s i

/-- Reading the spliced string `take i s ++ rep ++ drop (i+4) s`:
positions below `i` come from the prefix of `s`. -/
theorem splice_getElem_lo {s rep : List Nat} {i m : Nat}
    (hi : i ≤ s.length) (hm : m < i) :
    (s.take i ++ rep ++ s.drop (i + 4))[m]? = s[m]? := by
  have ht : (List.take i s).length = i := by rw [List.length_take]; omega
  rw [List.getElem?_append_left (by rw [List.length_append, ht]; omega),
    List.getElem?_append_left (by rw [ht]; omega), List.getElem?_take_of_lt hm]

/-- Positions `≥ i + rep.length` of the spliced string come from the tail
`drop (i+4) s`, i.e. read `s` shifted past the removed pattern. -/
theorem splice_getElem_hi {s rep : List Nat} {i m : Nat}
    (hi : i ≤ s.length) (hrep : rep.length = 2) :
    (s.take i ++ rep ++ s.drop (i + 4))[i + 2 + m]? = s[i + 4 + m]? := by
  have ht : (List.take i s).length = i := by rw [List.length_take]; omega
  rw [List.append_assoc, List.getElem?_append_right (by rw [ht]; omega), ht]
  have h1 : i + 2 + m - i = 2 + m := by omega
  rw [h1, List.getElem?_append_right (by rw [hrep]; omega), hrep]
  have h2 : 2 + m - 2 = m := by omega
  rw [h2, List.getElem?_drop]

/-- Positions `i` and `i + 1` of the spliced string come from `rep`. -/
theorem splice_getElem_mid {s rep : List Nat} {i m : Nat}
    (hi : i ≤ s.length) (hrep : rep.length = 2) (hm : m < 2) :
    (s.take i ++ rep ++ s.drop (i + 4))[i + m]? = rep[m]? := by
  have ht : (List.take i s).length = i := by rw [List.length_take]; omega
  rw [List.append_assoc, List.getElem?_append_right (by rw [ht]; omega), ht]
  have h1 : i + m - i = m := by omega
  rw [h1, List.getElem?_append_left (by rw [hrep]; omega)]

theorem EscapeRule.pat_ne (r : EscapeRule) : r.pat ≠ [] := by
  intro hnil
  have h4 := r.pat_len
  rw [hnil] at h4
  simp at h4

theorem replaceEscape_of_none {r : EscapeRule} {s : List Nat} {pos : Nat}
    (h : findFrom r.pat s pos = none) : replaceEscape r s pos = s := by
  rw [replaceEscape]
  split
  · rfl
  · rename_i i h2
    rw [h] at h2
    exact absurd h2 (by simp)

theorem replaceEscape_of_some {r : EscapeRule} {s : List Nat} {pos i : Nat}
    (h : findFrom r.pat s pos = some i) :
    replaceEscape r s pos = replaceEscape r (s.take i ++ r.rep ++ s.drop (i + 4)) (i + 1) := by
  rw [replaceEscape]
  split
  · rename_i h2
    rw [h] at h2
    exact absurd h2 (by simp)
  · rename_i j h2
    rw [h] at h2
    obtain rfl : i = j := by simpa using h2
    rfl

/-- Any occurrence of an all-ASCII 4-byte pattern in the spliced string
`take i s ++ rep ++ drop (i+4) s` lies entirely left of the splice (and was
an occurrence of `s`) or entirely right of it (an occurrence of `s` shifted
by 2): it cannot straddle the inserted non-ASCII bytes. -/
theorem occursAt_splice {pat rep s : List Nat} {i j : Nat}
    (hp4 : pat.length = 4) (hascii : ∀ b ∈ pat, b < 128) (hrep2 : rep.length = 2)
    (hhigh : ∀ b ∈ rep, 128 ≤ b) (hi : i + 4 ≤ s.length)
    (hocc : occursAt pat (s.take i ++ rep ++ s.drop (i + 4)) j) :
    (j + 4 ≤ i ∧ occursAt pat s j) ∨ (i + 2 ≤ j ∧ occursAt pat s (j + 2)) := by
  rw [occursAt_iff_getElem] at hocc
  by_cases hA : j + 4 ≤ i
  · left
    refine ⟨hA, ?_⟩
    rw [occursAt_iff_getElem]
    intro k hk
    rw [hp4] at hk
    have h := hocc k (by rw [hp4]; omega)
    rwa [splice_getElem_lo (by omega) (by omega)] at h
  · by_cases hB : i + 2 ≤ j
    · right
      refine ⟨hB, ?_⟩
      rw [occursAt_iff_getElem]
      intro k hk
      rw [hp4] at hk
      have h := hocc k (by rw [hp4]; omega)
      have hco : j + k = i + 2 + (j - (i + 2) + k) := by omega
      rw [hco, splice_getElem_hi (by omega) hrep2] at h
      have hco2 : i + 4 + (j - (i + 2) + k) = j + 2 + k := by omega
      rwa [hco2] at h
    · exfalso
      push_neg at hA hB
      have hmain : ∃ k m, k < 4 ∧ m < 2 ∧ j + k = i + m := by
        by_cases hji : j ≤ i
        · exact ⟨i - j, 0, by omega, by omega, by omega⟩
        · exact ⟨0, 1, by omega, by omega, by omega⟩
      obtain ⟨k, m, hk, hm, hco⟩ := hmain
      have h := hocc k (by rw [hp4]; omega)
      rw [hco, splice_getElem_mid (by omega) hrep2 hm] at h
      have hkp : k < pat.length := by rw [hp4]; omega
      have hmp : m < rep.length := by rw [hrep2]; omega
      rw [List.getElem?_eq_getElem hkp, List.getElem?_eq_getElem hmp] at h
      have heq := Option.some.inj h
      have h1 := hascii _ (List.getElem_mem hkp)
      have h2 := hhigh _ (List.getElem_mem hmp)
      omega

/-- The replacement loop for one rule removes every occurrence of the
rule's pattern, provided there was none strictly before the start
position. -/
theorem replaceEscape_clean (r : EscapeRule) (s : List Nat) (pos : Nat) :
    (∀ j, j < pos → ¬ occursAt r.pat s j) → cleanOf r.pat (replaceEscape r s pos) := by
  induction s, pos using replaceEscape.induct r with
  | case1 s pos h =>
    intro hpre
    rw [replaceEscape_of_none h]
    intro j
    rcases lt_or_ge j pos with hj | hj
    · exact hpre j hj
    · exact findFrom_none r.pat_ne h j hj
  | case2 s pos i h ih =>
    intro hpre
    rw [replaceEscape_of_some h]
    obtain ⟨hpos_le, hocc_i, hmin⟩ := findFrom_some h
    have hbound := occursAt_lt_length r.pat_ne hocc_i
    rw [r.pat_len] at hbound
    apply ih
    intro j hj hocc
    rcases occursAt_splice r.pat_len r.pat_ascii r.rep_len r.rep_high hbound hocc with
      ⟨hA, ho⟩ | ⟨hB, ho⟩
    · rcases lt_or_ge j pos with hjp | hjp
      · exact hpre j hjp ho
      · exact hmin j hjp (by omega) ho
    · omega

/-- The replacement loop of one rule cannot introduce an occurrence of any
all-ASCII 4-byte pattern that was absent before (the inserted bytes are
non-ASCII). -/
theorem replaceEscape_preserves_clean (r : EscapeRule) {pat : List Nat}
    (hp4 : pat.length = 4) (hascii : ∀ b ∈ pat, b < 128) (s : List Nat) (pos : Nat) :
    cleanOf pat s → cleanOf pat (replaceEscape r s pos) := by
  induction s, pos using replaceEscape.induct r with
  | case1 s pos h =>
    intro hclean
    rwa [replaceEscape_of_none h]
  | case2 s pos i h ih =>
    intro hclean
    rw [replaceEscape_of_some h]
    have hocc_i := (findFrom_some h).2.1
    have hbound := occursAt_lt_length r.pat_ne hocc_i
    rw [r.pat_len] at hbound
    apply ih
    intro j hocc
    rcases occursAt_splice hp4 hascii r.rep_len r.rep_high hbound hocc with
      ⟨_, ho⟩ | ⟨_, ho⟩
    · exact hclean _ ho
    · exact hclean _ ho

/-- On a string without occurrences, one replacement loop is the identity. -/
theorem replaceEscape_of_clean (r : EscapeRule) (s : List Nat) (pos : Nat)
    (hclean : cleanOf r.pat s) : replaceEscape r s pos = s := by
  cases hf : findFrom r.pat s pos with
  | none => exact replaceEscape_of_none hf
  | some i => exact absurd (findFrom_some hf).2.1 (hclean i)

/-- Explicit nested form of the decoder. -/
theorem decodeIFCString_eq (s : List Nat) :
    decodeIFCString s =
      replaceEscape ruleOumlCap (replaceEscape ruleUumlCap (replaceEscape ruleAumlCap
        (replaceEscape ruleOuml (replaceEscape ruleSzlig (replaceEscape ruleUuml
          (replaceEscape ruleAuml s 0) 0) 0) 0) 0) 0) 0 := by
  simp [decodeIFCString, ifcEscapeTable]

/-- The decoded string contains no occurrence of any pattern of the table. -/
theorem decodeIFCString_clean (s : List Nat) :
    ∀ r ∈ ifcEscapeTable, cleanOf r.pat (decodeIFCString s) := by
  have hvac : ∀ (t : List Nat) (j : Nat), j < 0 → ¬ occursAt t s j := by
    intro t j hj
    omega
  intro r hr
  rw [decodeIFCString_eq]
  fin_cases hr
  · exact replaceEscape_preserves_clean _ ruleAuml.pat_len ruleAuml.pat_ascii _ 0
      (replaceEscape_preserves_clean _ ruleAuml.pat_len ruleAuml.pat_ascii _ 0
        (replaceEscape_preserves_clean _ ruleAuml.pat_len ruleAuml.pat_ascii _ 0
          (replaceEscape_preserves_clean _ ruleAuml.pat_len ruleAuml.pat_ascii _ 0
            (replaceEscape_preserves_clean _ ruleAuml.pat_len ruleAuml.pat_ascii _ 0
              (replaceEscape_preserves_clean _ ruleAuml.pat_len ruleAuml.pat_ascii _ 0
                (replaceEscape_clean ruleAuml s 0 (fun j hj => by omega)))))))
  · exact replaceEscape_preserves_clean _ ruleUuml.pat_len ruleUuml.pat_ascii _ 0
      (replaceEscape_preserves_clean _ ruleUuml.pat_len ruleUuml.pat_ascii _ 0
        (replaceEscape_preserves_clean _ ruleUuml.pat_len ruleUuml.pat_ascii _ 0
          (replaceEscape_preserves_clean _ ruleUuml.pat_len ruleUuml.pat_ascii _ 0
            (replaceEscape_preserves_clean _ ruleUuml.pat_len ruleUuml.pat_ascii _ 0
              (replaceEscape_clean ruleUuml _ 0 (fun j hj => by omega))))))
  · exact replaceEscape_preserves_clean _ ruleSzlig.pat_len ruleSzlig.pat_ascii _ 0
      (replaceEscape_preserves_clean _ ruleSzlig.pat_len ruleSzlig.pat_ascii _ 0
        (replaceEscape_preserves_clean _ ruleSzlig.pat_len ruleSzlig.pat_ascii _ 0
          (replaceEscape_preserves_clean _ ruleSzlig.pat_len ruleSzlig.pat_ascii _ 0
            (replaceEscape_clean ruleSzlig _ 0 (fun j hj => by omega)))))
  · exact replaceEscape_preserves_clean _ ruleOuml.pat_len ruleOuml.pat_ascii _ 0
      (replaceEscape_preserves_clean _ ruleOuml.pat_len ruleOuml.pat_ascii _ 0
        (replaceEscape_preserves_clean _ ruleOuml.pat_len ruleOuml.pat_ascii _ 0
          (replaceEscape_clean ruleOuml _ 0 (fun j hj => by omega))))
  · exact replaceEscape_preserves_clean _ ruleAumlCap.pat_len ruleAumlCap.pat_ascii _ 0
      (replaceEscape_preserves_clean _ ruleAumlCap.pat_len ruleAumlCap.pat_ascii _ 0
        (replaceEscape_clean ruleAumlCap _ 0 (fun j hj => by omega)))
  · exact replaceEscape_preserves_clean _ ruleUumlCap.pat_len ruleUumlCap.pat_ascii _ 0
      (replaceEscape_clean ruleUumlCap _ 0 (fun j hj => by omega))
  · exact replaceEscape_clean ruleOumlCap _ 0 (fun j hj => by omega)

/-- Decoding an already-decoded string changes nothing. -/
theorem decodeIFCString_idem (s : List Nat) :
    decodeIFCString (decodeIFCString s) = decodeIFCString s := by
  have hc := decodeIFCString_clean s
  have h1 := hc ruleAuml (by simp [ifcEscapeTable])
  have h2 := hc ruleUuml (by simp [ifcEscapeTable])
  have h3 := hc ruleSzlig (by simp [ifcEscapeTable])
  have h4 := hc ruleOuml (by simp [ifcEscapeTable])
  have h5 := hc ruleAumlCap (by simp [ifcEscapeTable])
  have h6 := hc ruleUumlCap (by simp [ifcEscapeTable])
  have h7 := hc ruleOumlCap (by simp [ifcEscapeTable])
  conv_lhs => rw [decodeIFCString_eq (decodeIFCString s)]
  rw [replaceEscape_of_clean ruleAuml _ 0 h1, replaceEscape_of_clean ruleUuml _ 0 h2,
    replaceEscape_of_clean ruleSzlig _ 0 h3, replaceEscape_of_clean ruleOuml _ 0 h4,
    replaceEscape_of_clean ruleAumlCap _ 0 h5, replaceEscape_of_clean ruleUumlCap _ 0 h6,
    replaceEscape_of_clean ruleOumlCap _ 0 h7]

/-- C5: `DecodeIFCString` is a total pure function (a Lean `def` on all of
`List Nat`), idempotent on every input, and its output contains no
remaining occurrence of any `\S\<code>` escape token of the fixed table. -/
theorem C5_decode_idempotent_and_token_free (s : List Nat) :
    decodeIFCString (decodeIFCString s) = decodeIFCString s ∧
      ∀ r ∈ ifcEscapeTable, ¬ containsPat r.pat (decodeIFCString s) := by
  refine ⟨decodeIFCString_idem s, ?_⟩
  intro r hr hcon
  obtain ⟨i, hi⟩ := hcon
  exact decodeIFCString_clean s r hr i hi

/-- Witness for C5 at the concrete input `"\S\d"` (bytes `92 83 92 100`)
and the first table rule. -/
theorem C5_witness :
    decodeIFCString (decodeIFCString [92, 83, 92, 100]) = decodeIFCString [92, 83, 92, 100] ∧
      ¬ containsPat ruleAuml.pat (decodeIFCString [92, 83, 92, 100]) :=
  ⟨(C5_decode_idempotent_and_token_free [92, 83, 92, 100]).1,
    (C5_decode_idempotent_and_token_free [92, 83, 92, 100]).2 ruleAuml
      (by simp [ifcEscapeTable])⟩

/-! ## Color-keyed materials (`IFCImporter::GetOrCreateColorMaterial`)

Colors (`aiColor4D`, machine floats in the source) are modelled as
rationals. `toHexByte` is the `toHex` lambda:
`std::round(std::min(std::max(value * 255.0f, 0.0f), 255.0f))` followed by
two uppercase hex digits (Mathlib's `round` agrees with `std::round` on the
clamped non-negative range). The cache `colorMaterialCache` is an
association map; appending a new material to `pScene->mMaterials` is
modelled by the growing `materials` list, the returned slot being the old
`pScene->mNumMaterials`. -/

structure AiColor where
  r : ℚ
  g : ℚ
  b : ℚ
  a : ℚ

/-- `toHex`: round one channel to the nearest of 256 levels. -/
def toHexByteVal (v : ℚ) : Nat := (round (min (max (v * 255) 0) 255)).toNat

def hexDigitChar (n : Nat) : Char :=
  if n < 10 then Char.ofNat (48 + n) else Char.ofNat (55 + n)

def hexByte (n : Nat) : List Char := [hexDigitChar (n / 16), hexDigitChar (n % 16)]

/-- The 8-hex-digit RRGGBBAA key of a color. -/
def colorKey (c : AiColor) : List Char :=
  hexByte (toHexByteVal c.r) ++ hexByte (toHexByteVal c.g) ++
    hexByte (toHexByteVal c.b) ++ hexByte (toHexByteVal c.a)

/-- The state `GetOrCreateColorMaterial` reads and writes: the
`colorMaterialCache` (key → slot index) and the scene material array
(only the names matter here). -/
structure MatState where
  cache : List (List Char × Nat)
  materials : List (List Char)

/-- First-match association lookup (`colorMaterialCache.find`). -/
def lookupKey : List (List Char × Nat) → List Char → Option Nat
  | [], _ => none
  | p :: rest, k => if p.1 = k then some p.2 else lookupKey rest k

/-- `IFCImporter::GetOrCreateColorMaterial`: return the cached slot for the
color's hex key, or append a new material (named after the key) at index
`mNumMaterials` and cache that index. -/
def getOrCreateColorMaterial (c : AiColor) (st : MatState) : Nat × MatState :=
  let key := colorKey c
  match lookupKey st.cache key with
  | some idx => (idx, st)
  | none =>
      (st.materials.length,
        ⟨st.cache ++ [(key, st.materials.length)], st.materials ++ [key]⟩)

/-- A sequence of calls within one load, returning all returned slot
indices and the final state. -/
def runColorCalls (st : MatState) : List AiColor → List Nat × MatState
  | [] => ([], st)
  | c :: cs =>
      let r := getOrCreateColorMaterial c st
      let rest := runColorCalls r.2 cs
      (r.1 :: rest.1, rest.2)

/-- Invariant of the per-load state: cached keys are distinct, cached
indices are distinct, and every cached index points into the material
array. It holds for the state at the start of `ExtractGeometry`
(`colorMaterialCache` is empty there). -/
def MatWF (st : MatState) : Prop :=
  (st.cache.map Prod.fst).Nodup ∧ (st.cache.map Prod.snd).Nodup ∧
    ∀ p ∈ st.cache, p.2 < st.materials.length

theorem lookupKey_mem {cache : List (List Char × Nat)} {k : List Char} {i : Nat}
    (h : lookupKey cache k = some i) : (k, i) ∈ cache := by
  induction cache with
  | nil => simp [lookupKey] at h
  | cons p rest ih =>
    rw [lookupKey] at h
    split at h
    · rename_i hp
      obtain rfl : p.2 = i := by simpa using h
      exact List.mem_cons.mpr (Or.inl (Prod.ext_iff.mpr ⟨hp.symm, rfl⟩))
    · exact List.mem_cons_of_mem _ (ih h)

theorem lookupKey_append_of_some {cache cache2 : List (List Char × Nat)}
    {k : List Char} {i : Nat} (h : lookupKey cache k = some i) :
    lookupKey (cache ++ cache2) k = some i := by
  induction cache with
  | nil => simp [lookupKey] at h
  | cons p rest ih =>
    rw [lookupKey] at h
    rw [List.cons_append, lookupKey]
    split at h
    · rename_i hp
      rw [if_pos hp]
      exact h
    · rename_i hp
      rw [if_neg hp]
      exact ih h

theorem lookupKey_append_of_none {cache : List (List Char × Nat)}
    {k : List Char} (h : lookupKey cache k = none) (p : List Char × Nat) :
    lookupKey (cache ++ [p]) k = if p.1 = k then some p.2 else none := by
  induction cache with
  | nil => simp [lookupKey]
  | cons q rest ih =>
    rw [lookupKey] at h
    split at h
    · exact absurd h (by simp)
    · rename_i hq
      rw [List.cons_append, lookupKey, if_neg hq]
      exact ih h

theorem lookupKey_not_mem {cache : List (List Char × Nat)} {k : List Char}
    (h : lookupKey cache k = none) : ∀ i, (k, i) ∉ cache := by
  intro i hmem
  induction cache with
  | nil => simp at hmem
  | cons p rest ih =>
    rw [lookupKey] at h
    split at h
    · exact absurd h (by simp)
    · rename_i hp
      rcases List.mem_cons.mp hmem with heq | hmem2
      · exact hp (by rw [← heq])
      · exact ih h hmem2

theorem getOrCreate_persist {c : AiColor} {st : MatState} {k : List Char} {v : Nat}
    (h : lookupKey st.cache k = some v) :
    lookupKey (getOrCreateColorMaterial c st).2.cache k = some v := by
  unfold getOrCreateColorMaterial
  cases hl : lookupKey st.cache (colorKey c) with
  | some idx => simpa [hl] using h
  | none =>
    simp only [hl]
    exact lookupKey_append_of_some h

theorem getOrCreate_step {c : AiColor} {st : MatState} (hwf : MatWF st) :
    MatWF (getOrCreateColorMaterial c st).2 ∧
      lookupKey (getOrCreateColorMaterial c st).2.cache (colorKey c) =
        some (getOrCreateColorMaterial c st).1 := by
  obtain ⟨hk, hv, hb⟩ := hwf
  unfold getOrCreateColorMaterial
  cases hl : lookupKey st.cache (colorKey c) with
  | some idx =>
    simp only [hl]
    exact ⟨⟨hk, hv, hb⟩, trivial⟩
  | none =>
    simp only [hl]
    have hkey_notin : colorKey c ∉ st.cache.map Prod.fst := by
      intro hmem
      obtain ⟨p, hp, hp1⟩ := List.mem_map.mp hmem
      have : (colorKey c, p.2) ∈ st.cache := by
        have : p = (colorKey c, p.2) := Prod.ext_iff.mpr ⟨hp1, rfl⟩
        rwa [← this]
      exact lookupKey_not_mem hl p.2 this
    have hidx_notin : st.materials.length ∉ st.cache.map Prod.snd := by
      intro hmem
      obtain ⟨p, hp, hp2⟩ := List.mem_map.mp hmem
      have := hb p hp
      omega
    refine ⟨⟨?_, ?_, ?_⟩, ?_⟩
    · rw [List.map_append]
      simp [List.nodup_append, hk, hkey_notin]
    · rw [List.map_append]
      simp [List.nodup_append, hv, hidx_notin]
    · intro p hp
      simp only [List.length_append, List.length_singleton]
      rcases List.mem_append.mp hp with hp1 | hp2
      · have := hb p hp1
        omega
      · simp only [List.mem_singleton] at hp2
        rw [hp2]
        simp
    · rw [lookupKey_append_of_none hl]
      simp

theorem runColorCalls_persist (cs : List AiColor) :
    ∀ (st : MatState) (k : List Char) (v : Nat), lookupKey st.cache k = some v →
      lookupKey (runColorCalls st cs).2.cache k = some v := by
  induction cs with
  | nil => intro st k v h; simpa [runColorCalls] using h
  | cons c cs ih =>
    intro st k v h
    simp only [runColorCalls]
    exact ih _ k v (getOrCreate_persist h)

/-- Every call's returned index is recorded, under the call's color key, in
the final cache; the final state stays well-formed. -/
theorem runColorCalls_spec (cs : List AiColor) :
    ∀ (st : MatState), MatWF st →
      MatWF (runColorCalls st cs).2 ∧
      ∀ (j : Nat) (c : AiColor) (i : Nat),
        cs[j]? = some c → (runColorCalls st cs).1[j]? = some i →
        lookupKey (runColorCalls st cs).2.cache (colorKey c) = some i := by
  induction cs with
  | nil =>
    intro st hwf
    constructor
    · simpa [runColorCalls] using hwf
    · intro j c i hj hi
      simp at hj
  | cons c0 cs ih =>
    intro st hwf
    obtain ⟨hwf2, hcached⟩ := getOrCreate_step (c := c0) hwf
    obtain ⟨hwf3, hchar⟩ := ih _ hwf2
    refine ⟨by simpa [runColorCalls] using hwf3, ?_⟩
    intro j c i hj hi
    cases j with
    | zero =>
      obtain rfl : c0 = c := by simpa using hj
      simp only [runColorCalls] at hi
      obtain rfl : (getOrCreateColorMaterial c0 st).1 = i := by simpa using hi
      simp only [runColorCalls]
      exact runColorCalls_persist cs _ _ _ hcached
    | succ j =>
      simp only [runColorCalls] at hi ⊢
      exact hchar j c i (by simpa using hj) (by simpa using hi)

/-- C4: within one load (any well-formed starting state; `ExtractGeometry`
starts with an empty cache), any two calls to `GetOrCreateColorMaterial`
return the same slot index iff their colors round to the same 8-hex-digit
RRGGBBAA key. -/
theorem C4_color_material_dedup (st : MatState) (hwf : MatWF st)
    (cs : List AiColor) (a b : Nat) (ca cb : AiColor) (ia ib : Nat)
    (hca : cs[a]? = some ca) (hcb : cs[b]? = some cb)
    (hia : (runColorCalls st cs).1[a]? = some ia)
    (hib : (runColorCalls st cs).1[b]? = some ib) :
    (colorKey ca = colorKey cb → ia = ib) ∧ (colorKey ca ≠ colorKey cb → ia ≠ ib) := by
  obtain ⟨hwfF, hchar⟩ := runColorCalls_spec cs st hwf
  have h1 := hchar a ca ia hca hia
  have h2 := hchar b cb ib hcb hib
  constructor
  · intro hk
    rw [hk] at h1
    rw [h1] at h2
    exact Option.some.inj h2
  · intro hk heq
    rw [heq] at h1
    have m1 := lookupKey_mem h1
    have m2 := lookupKey_mem h2
    have hinj := List.inj_on_of_nodup_map hwfF.2.1
    have := hinj m1 m2 rfl
    exact hk (congrArg Prod.fst this)

/-- Witness for C4: an empty starting state, pure red then pure green. -/
theorem C4_witness :
    (colorKey ⟨1, 0, 0, 1⟩ = colorKey ⟨0, 1, 0, 1⟩ → (0 : Nat) = 1) ∧
      (colorKey ⟨1, 0, 0, 1⟩ ≠ colorKey ⟨0, 1, 0, 1⟩ → (0 : Nat) ≠ 1) :=
  C4_color_material_dedup ⟨[], []⟩ ⟨by simp, by simp, by simp⟩
    [⟨1, 0, 0, 1⟩, ⟨0, 1, 0, 1⟩] 0 1 ⟨1, 0, 0, 1⟩ ⟨0, 1, 0, 1⟩ 0 1
    rfl rfl
    (by simp [runColorCalls, getOrCreateColorMaterial, lookupKey, colorKey, toHexByteVal,
      hexByte, hexDigitChar])
    (by simp [runColorCalls, getOrCreateColorMaterial, lookupKey, colorKey, toHexByteVal,
      hexByte, hexDigitChar])

/-! ## Lazy default material (`IFCImporter::ExtractGeometry`, final step)

During the extraction loop, `needsDefaultMaterial` is set whenever an
appended mesh has material index 0. Afterwards, if set, the code inserts
the `IFC_Default` material at slot 0, shifting every existing slot up by
one, and increments every strictly positive mesh material index. Meshes
are represented by their material index, materials by their (opaque)
record of type `α`. -/

def needsDefaultMaterial (meshMats : List Nat) : Bool :=
  meshMats.any (· == 0)

/-- The `if (needsDefaultMaterial) { ... }` block at the end of
`ExtractGeometry`, acting on mesh material indices and the scene material
array. -/
def insertDefaultMaterial {α : Type} (meshMats : List Nat) (materials : List α)
    (defaultMat : α) : List Nat × List α :=
  if needsDefaultMaterial meshMats then
    (meshMats.map (fun i => if 0 < i then i + 1 else i), defaultMat :: materials)
  else
    (meshMats, materials)

/-- C7: the default material is created only when some extracted mesh has
material index 0; when created it lands at slot 0, every existing slot
moves up by one, and every nonzero mesh index is incremented so it still
names the same material record. -/
theorem C7_default_material_insertion {α : Type} (meshMats : List Nat)
    (materials : List α) (defaultMat : α) :
    (needsDefaultMaterial meshMats = true ↔ 0 ∈ meshMats) ∧
    (needsDefaultMaterial meshMats = false →
      insertDefaultMaterial meshMats materials defaultMat = (meshMats, materials)) ∧
    (needsDefaultMaterial meshMats = true →
      (insertDefaultMaterial meshMats materials defaultMat).2 = defaultMat :: materials ∧
      ∀ (j i : Nat), meshMats[j]? = some i →
        (0 < i →
          (insertDefaultMaterial meshMats materials defaultMat).1[j]? = some (i + 1) ∧
          (insertDefaultMaterial meshMats materials defaultMat).2[i + 1]? = materials[i]?) ∧
        (i = 0 →
          (insertDefaultMaterial meshMats materials defaultMat).1[j]? = some 0 ∧
          (insertDefaultMaterial meshMats materials defaultMat).2[0]? = some defaultMat)) := by
  refine ⟨?_, ?_, ?_⟩
  · simp [needsDefaultMaterial, List.any_eq_true]
  · intro h
    rw [insertDefaultMaterial, if_neg (by simp [h])]
  · intro h
    rw [insertDefaultMaterial, if_pos h]
    refine ⟨rfl, ?_⟩
    intro j i hj
    constructor
    · intro hpos
      refine ⟨?_, ?_⟩
      · rw [List.getElem?_map, hj]
        simp [hpos]
      · simp
    · rintro rfl
      refine ⟨?_, ?_⟩
      · rw [List.getElem?_map, hj]
        simp
      · simp

/-- Witness for C7: meshes with indices `[0, 1]` over a two-material
array; all hypotheses discharged at these concrete inputs. -/
theorem C7_witness :
    (insertDefaultMaterial [0, 1] ["matA", "matB"] "dflt").2 = "dflt" :: ["matA", "matB"] ∧
    (insertDefaultMaterial [0, 1] ["matA", "matB"] "dflt").1[1]? = some 2 ∧
    (insertDefaultMaterial [0, 1] ["matA", "matB"] "dflt").2[2]? = ["matA", "matB"][1]? ∧
    (insertDefaultMaterial [0, 1] ["matA", "matB"] "dflt").1[0]? = some 0 ∧
    (insertDefaultMaterial [0, 1] ["matA", "matB"] "dflt").2[0]? = some "dflt" := by
  have h := (C7_default_material_insertion [0, 1] ["matA", "matB"] "dflt").2.2 (by decide)
  exact ⟨h.1, ((h.2 1 1 (by decide)).1 (by decide)).1, ((h.2 1 1 (by decide)).1 (by decide)).2,
    ((h.2 0 0 (by decide)).2 rfl).1, ((h.2 0 0 (by decide)).2 rfl).2⟩

/-! ## Spatial containment index (`IFCImporter::PopulateSpatialContainmentMap`)

The function iterates over all `IFCRELCONTAINEDINSPATIALSTRUCTURE`
relations. For each, it reads the relating structure (argument 5), then
the related-elements set (argument 4), then writes
`elementToStorey[elementID] = relatingStructure` for each element
reference. Each external read can throw; a throw is caught at the relation
level (keeping earlier writes of that relation) and the loop continues.
A failing read is modelled by `none` (for the two argument reads) or
`ElemTok.bad` (for resolving one element reference of the set). -/

inductive ElemTok where
  | ref (id : Nat)
  | bad

structure ContainRel where
  relatingStructure : Option Nat
  relatedElements : Option (List ElemTok)

/-- `elementToStorey[elementID] = relatingStructure`, overwriting. -/
def mapInsert (m : Nat → Option Nat) (e sid : Nat) : Nat → Option Nat :=
  fun x => if x = e then some sid else m x

/-- The inner `for (auto& elementRef : relatedElements)` loop; a throwing
`GetRefArgument(elementRef)` aborts the rest of this relation's writes. -/
def applyElems (m : Nat → Option Nat) (sid : Nat) : List ElemTok → (Nat → Option Nat)
  | [] => m
  | .ref e :: rest => applyElems (mapInsert m e sid) sid rest
  | .bad :: _ => m

/-- Processing one relation: read argument 5, then argument 4, then write
all element references; any failure skips the remainder of the relation. -/
def processRel (m : Nat → Option Nat) (r : ContainRel) : Nat → Option Nat :=
  match r.relatingStructure with
  | none => m
  | some sid =>
      match r.relatedElements with
      | none => m
      | some toks => applyElems m sid toks

/-- `IFCImporter::PopulateSpatialContainmentMap`: fold all relations over
the initially empty map. Total by construction: it always returns a map. -/
def populateSpatialContainmentMap (rels : List ContainRel) : Nat → Option Nat :=
  rels.foldl processRel (fun _ => none)

/-- The element ids actually written by one relation: the references before
the first failing one. -/
def writtenRefs : List ElemTok → List Nat
  | [] => []
  | .ref e :: rest => e :: writtenRefs rest
  | .bad :: _ => []

/-- Relation `r` writes an entry for element `e`. -/
def WritesElem (r : ContainRel) (e : Nat) : Prop :=
  ∃ sid toks, r.relatingStructure = some sid ∧ r.relatedElements = some toks ∧
    e ∈ writtenRefs toks

theorem applyElems_eq (sid : Nat) (toks : List ElemTok) :
    ∀ (m : Nat → Option Nat) (e : Nat),
      applyElems m sid toks e = if e ∈ writtenRefs toks then some sid else m e := by
  induction toks with
  | nil => intro m e; simp [applyElems, writtenRefs]
  | cons t rest ih =>
    intro m e
    cases t with
    | bad => simp [applyElems, writtenRefs]
    | ref a =>
      rw [applyElems, ih, writtenRefs]
      by_cases hmem : e ∈ writtenRefs rest
      · rw [if_pos hmem, if_pos (List.mem_cons_of_mem _ hmem)]
      · rw [if_neg hmem]
        unfold mapInsert
        by_cases hea : e = a
        · rw [if_pos hea, if_pos (by rw [hea]; exact List.mem_cons_self a _)]
        · rw [if_neg hea, if_neg (by simp [hea, hmem])]

theorem processRel_writes {r : ContainRel} {sid : Nat} {toks : List ElemTok} {e : Nat}
    (h5 : r.relatingStructure = some sid) (h4 : r.relatedElements = some toks)
    (he : e ∈ writtenRefs toks) (m : Nat → Option Nat) :
    processRel m r e = some sid := by
  simp only [processRel, h5, h4]
  rw [applyElems_eq, if_pos he]

theorem processRel_skips {r : ContainRel} {e : Nat} (h : ¬ WritesElem r e)
    (m : Nat → Option Nat) : processRel m r e = m e := by
  rw [processRel]
  cases h5 : r.relatingStructure with
  | none => rfl
  | some sid =>
    cases h4 : r.relatedElements with
    | none => rfl
    | some toks =>
      simp only []
      rw [applyElems_eq, if_neg]
      intro hmem
      exact h ⟨sid, toks, h5, h4, hmem⟩

theorem foldl_processRel_skips {e : Nat} (rels : List ContainRel)
    (hno : ∀ r ∈ rels, ¬ WritesElem r e) :
    ∀ m : Nat → Option Nat, rels.foldl processRel m e = m e := by
  induction rels with
  | nil => intro m; rfl
  | cons r rest ih =>
    intro m
    rw [List.foldl_cons, ih (fun r2 h2 => hno r2 (List.mem_cons_of_mem _ h2)),
      processRel_skips (hno r (List.mem_cons_self _ _))]

/-- C6: every relation is processed; a well-read relation writes
`map[elementID] = structureID` for each resolvable element reference,
overwriting any previous entry (the write is independent of the incoming
map); a malformed relation (failing argument read) is skipped without
aborting the build, which always returns a map: the final map sends `e` to
the structure of the last relation that wrote `e`. -/
theorem C6_populate_spatial_containment :
    (∀ (m : Nat → Option Nat) (r : ContainRel) (sid : Nat) (toks : List ElemTok) (e : Nat),
      r.relatingStructure = some sid → r.relatedElements = some toks →
      e ∈ writtenRefs toks → processRel m r e = some sid) ∧
    (∀ (m : Nat → Option Nat) (r : ContainRel),
      r.relatingStructure = none ∨ r.relatedElements = none → processRel m r = m) ∧
    (∀ (rels1 rels2 : List ContainRel) (r : ContainRel) (sid : Nat)
        (toks : List ElemTok) (e : Nat),
      r.relatingStructure = some sid → r.relatedElements = some toks →
      e ∈ writtenRefs toks → (∀ r2 ∈ rels2, ¬ WritesElem r2 e) →
      populateSpatialContainmentMap (rels1 ++ r :: rels2) e = some sid) := by
  refine ⟨?_, ?_, ?_⟩
  · intro m r sid toks e h5 h4 he
    exact processRel_writes h5 h4 he m
  · intro m r h
    rw [processRel]
    rcases h with h5 | h4
    · rw [h5]
    · cases h5 : r.relatingStructure with
      | none => rfl
      | some sid => rw [h4]
  · intro rels1 rels2 r sid toks e h5 h4 he hno
    rw [populateSpatialContainmentMap, List.foldl_append, List.foldl_cons,
      foldl_processRel_skips rels2 hno, processRel_writes h5 h4 he]

/-- Witness for C6: one good relation mapping elements 1 and 2 to storey 5,
followed by a malformed relation; element 1 maps to 5 in the result. -/
theorem C6_witness :
    processRel (fun _ => none) ⟨some 5, some [ElemTok.ref 1, ElemTok.ref 2]⟩ 1 = some 5 ∧
    processRel (fun _ => none) ⟨none, some [ElemTok.ref 1]⟩ = (fun _ => none) ∧
    populateSpatialContainmentMap
      [⟨some 5, some [ElemTok.ref 1, ElemTok.ref 2]⟩, ⟨none, some [ElemTok.ref 1]⟩] 1 =
      some 5 :=
  ⟨C6_populate_spatial_containment.1 (fun _ => none) _ 5 [ElemTok.ref 1, ElemTok.ref 2] 1
      rfl rfl (by simp [writtenRefs]),
    C6_populate_spatial_containment.2.1 (fun _ => none) _ (Or.inl rfl),
    C6_populate_spatial_containment.2.2 [] [⟨none, some [ElemTok.ref 1]⟩] _ 5
      [ElemTok.ref 1, ElemTok.ref 2] 1 rfl rfl (by simp [writtenRefs])
      (by
        intro r2 h2
        simp only [List.mem_singleton] at h2
        rintro ⟨sid, toks, hs, ht, hm⟩
        rw [h2] at hs
        exact absurd hs (by simp))⟩

/-! ## Format recognizer (`IFCImporter::CanRead`)

`CanRead` returns true immediately when the file extension is `ifc`;
otherwise, when signature checking is requested and an IO handler exists,
it searches the file header for the literal token `ISO-10303-21`; in every
other case it returns false. The two helpers live in the assimp core, not
in this repository frame, and are modelled from the spec. -/

def toLowerChar (c : Char) : Char :=
  if 'A' ≤ c ∧ c ≤ 'Z' then Char.ofNat (c.toNat + 32) else c

/-- Modelled from the spec: `GetExtension` (assimp core, not under the
sources provided) — the recognized-extension check reads the text after
the file name's final dot, lowercased; a name without a dot has no
extension. -/
def getExtension (name : List Char) : List Char :=
  if ('.' : Char) ∈ name then
    ((name.reverse.takeWhile (fun c => c ≠ '.')).reverse).map toLowerChar
  else []

/-- Contiguous-substring test (Boolean), structurally recursive. -/
def containsSub (pat : List Char) : List Char → Bool
  | [] => pat.isEmpty
  | c :: rest => pat.isPrefixOf (c :: rest) || containsSub pat rest

theorem containsSub_iff (pat l : List Char) : containsSub pat l = true ↔ pat <:+: l := by
  induction l with
  | nil => simp [containsSub, List.isEmpty_iff, List.infix_nil]
  | cons c rest ih =>
    rw [containsSub, Bool.or_eq_true, ih, List.isPrefixOf_iff_prefix, List.infix_cons_iff]

/-- Modelled from the spec: `SearchFileHeaderForToken` (assimp core, not
under the sources provided) — reports whether any of the given tokens
occurs in the file header. -/
def searchFileHeaderForToken (header : List Char) (tokens : List (List Char)) : Bool :=
  tokens.any (fun t => containsSub t header)

/-- The header token `ISO-10303-21`. -/
def isoToken : List Char := "ISO-10303-21".toList

/-- An input as `CanRead` observes it: its file name and its readable
header bytes (empty when no IO handler can open it). -/
structure InputFile where
  name : List Char
  header : List Char

/-- `IFCImporter::CanRead`. -/
def canRead (f : InputFile) (checkSig : Bool) (hasIOHandler : Bool) : Bool :=
  if getExtension f.name = "ifc".toList then true
  else if checkSig && hasIOHandler then searchFileHeaderForToken f.header [isoToken]
  else false

/-- C8: `CanRead` accepts every file whose extension is `ifc`, and rejects
every input whose extension is not `ifc` and whose header does not contain
the literal token `ISO-10303-21` — under any `checkSig` / IO-handler
combination, so before any entity table could be built. -/
theorem C8_canRead_accept_reject (f : InputFile) (checkSig hasIOHandler : Bool) :
    (getExtension f.name = "ifc".toList → canRead f checkSig hasIOHandler = true) ∧
    (getExtension f.name ≠ "ifc".toList → ¬ isoToken <:+: f.header →
      canRead f checkSig hasIOHandler = false) := by
  constructor
  · intro hext
    rw [canRead, if_pos hext]
  · intro hext htok
    rw [canRead, if_neg hext]
    cases hcs : checkSig && hasIOHandler with
    | false => rw [if_neg (by simp [hcs])]
    | true =>
      rw [if_pos (by simp [hcs]), searchFileHeaderForToken]
      simp only [List.any_cons, List.any_nil, Bool.or_false]
      rw [← Bool.not_eq_true]
      intro hinf
      exact htok (containsSub_iff _ _ |>.mp hinf)

/-- Witness for C8: a `.step` file without the header token is rejected;
a `.ifc` file is accepted. -/
theorem C8_witness :
    canRead ⟨"model.step".toList, "HEADER;FILE_NAME;".toList⟩ true true = false ∧
    canRead ⟨"building.ifc".toList, [] ⟩ true true = true :=
  ⟨(C8_canRead_accept_reject ⟨"model.step".toList, "HEADER;FILE_NAME;".toList⟩ true true).2
      (by decide) (by decide),
    (C8_canRead_accept_reject ⟨"building.ifc".toList, []⟩ true true).1 (by decide)⟩

/-! ## Planar UV generation (`IFCImporter::GenerateTextureCoordinates`)

Vertices are 3-vectors; the machine floats of the source are modelled as
rationals (`FLT_MAX` by its exact value `2^128 - 2^104`, the threshold
`1e-6f` by `1/1000000`). The bounding box is accumulated exactly as in
`ConvertWebIFCMesh` / `CreateMeshFromFlatMesh`: a min/max fold started at
`(FLT_MAX, ..)` and `(-FLT_MAX, ..)`. Each bounding-box extent below the
threshold is clamped to 1, then the two axes whose (clamped) extents are
not the selected largest one carry the linear `[0,1]` maps. -/

structure Vec3 where
  x : ℚ
  y : ℚ
  z : ℚ

def fltMax : ℚ := 2 ^ 128 - 2 ^ 104

/-- The min-fold of the source loop (`minBounds` accumulation). -/
def minBounds (vs : List Vec3) : Vec3 :=
  vs.foldl (fun mn v => ⟨min mn.x v.x, min mn.y v.y, min mn.z v.z⟩)
    ⟨fltMax, fltMax, fltMax⟩

/-- The max-fold of the source loop (`maxBounds` accumulation). -/
def maxBounds (vs : List Vec3) : Vec3 :=
  vs.foldl (fun mx v => ⟨max mx.x v.x, max mx.y v.y, max mx.z v.z⟩)
    ⟨-fltMax, -fltMax, -fltMax⟩

/-- `if (size.c < 1e-6f) size.c = 1.0f` for one axis. -/
def clampAxis (s : ℚ) : ℚ := if s < 1 / 1000000 then 1 else s

/-- The per-vertex body of `GenerateTextureCoordinates`: pick the two axes
other than the largest (clamped) box extent and map linearly. -/
def generateUV (mn mx : Vec3) (v : Vec3) : ℚ × ℚ :=
  let sx := clampAxis (mx.x - mn.x)
  let sy := clampAxis (mx.y - mn.y)
  let sz := clampAxis (mx.z - mn.z)
  if sy ≤ sx ∧ sz ≤ sx then ((v.y - mn.y) / sy, (v.z - mn.z) / sz)
  else if sx ≤ sy ∧ sz ≤ sy then ((v.x - mn.x) / sx, (v.z - mn.z) / sz)
  else ((v.x - mn.x) / sx, (v.y - mn.y) / sy)

theorem minBounds_le (vs : List Vec3) :
    ∀ v ∈ vs, (minBounds vs).x ≤ v.x ∧ (minBounds vs).y ≤ v.y ∧ (minBounds vs).z ≤ v.z := by
  unfold minBounds
  suffices h : ∀ (init : Vec3) (v : Vec3), v ∈ vs →
      (vs.foldl (fun mn v => ⟨min mn.x v.x, min mn.y v.y, min mn.z v.z⟩) init).x ≤ v.x ∧
      (vs.foldl (fun mn v => ⟨min mn.x v.x, min mn.y v.y, min mn.z v.z⟩) init).y ≤ v.y ∧
      (vs.foldl (fun mn v => ⟨min mn.x v.x, min mn.y v.y, min mn.z v.z⟩) init).z ≤ v.z by
    intro v hv
    exact h _ v hv
  have hmono : ∀ (init : Vec3) (l : List Vec3),
      (l.foldl (fun mn v => ⟨min mn.x v.x, min mn.y v.y, min mn.z v.z⟩) init).x ≤ init.x ∧
      (l.foldl (fun mn v => ⟨min mn.x v.x, min mn.y v.y, min mn.z v.z⟩) init).y ≤ init.y ∧
      (l.foldl (fun mn v => ⟨min mn.x v.x, min mn.y v.y, min mn.z v.z⟩) init).z ≤ init.z := by
    intro init l
    induction l generalizing init with
    | nil => exact ⟨le_refl _, le_refl _, le_refl _⟩
    | cons w rest ih =>
      obtain ⟨h1, h2, h3⟩ := ih ⟨min init.x w.x, min init.y w.y, min init.z w.z⟩
      exact ⟨le_trans h1 (min_le_left _ _), le_trans h2 (min_le_left _ _),
        le_trans h3 (min_le_left _ _)⟩
  induction vs with
  | nil => intro init v hv; simp at hv
  | cons w rest ih =>
    intro init v hv
    rw [List.foldl_cons]
    rcases List.mem_cons.mp hv with rfl | hv2
    · obtain ⟨h1, h2, h3⟩ := hmono ⟨min init.x v.x, min init.y v.y, min init.z v.z⟩ rest
      exact ⟨le_trans h1 (min_le_right _ _), le_trans h2 (min_le_right _ _),
        le_trans h3 (min_le_right _ _)⟩
    · exact ih _ v hv2

theorem le_maxBounds (vs : List Vec3) :
    ∀ v ∈ vs, v.x ≤ (maxBounds vs).x ∧ v.y ≤ (maxBounds vs).y ∧ v.z ≤ (maxBounds vs).z := by
  unfold maxBounds
  suffices h : ∀ (init : Vec3) (v : Vec3), v ∈ vs →
      v.x ≤ (vs.foldl (fun mx v => ⟨max mx.x v.x, max mx.y v.y, max mx.z v.z⟩) init).x ∧
      v.y ≤ (vs.foldl (fun mx v => ⟨max mx.x v.x, max mx.y v.y, max mx.z v.z⟩) init).y ∧
      v.z ≤ (vs.foldl (fun mx v => ⟨max mx.x v.x, max mx.y v.y, max mx.z v.z⟩) init).z by
    intro v hv
    exact h _ v hv
  have hmono : ∀ (init : Vec3) (l : List Vec3),
      init.x ≤ (l.foldl (fun mx v => ⟨max mx.x v.x, max mx.y v.y, max mx.z v.z⟩) init).x ∧
      init.y ≤ (l.foldl (fun mx v => ⟨max mx.x v.x, max mx.y v.y, max mx.z v.z⟩) init).y ∧
      init.z ≤ (l.foldl (fun mx v => ⟨max mx.x v.x, max mx.y v.y, max mx.z v.z⟩) init).z := by
    intro init l
    induction l generalizing init with
    | nil => exact ⟨le_refl _, le_refl _, le_refl _⟩
    | cons w rest ih =>
      obtain ⟨h1, h2, h3⟩ := ih ⟨max init.x w.x, max init.y w.y, max init.z w.z⟩
      exact ⟨le_trans (le_max_left _ _) h1, le_trans (le_max_left _ _) h2,
        le_trans (le_max_left _ _) h3⟩
  induction vs with
  | nil => intro init v hv; simp at hv
  | cons w rest ih =>
    intro init v hv
    rw [List.foldl_cons]
    rcases List.mem_cons.mp hv with rfl | hv2
    · obtain ⟨h1, h2, h3⟩ := hmono ⟨max init.x v.x, max init.y v.y, max init.z v.z⟩ rest
      exact ⟨le_trans (le_max_right _ _) h1, le_trans (le_max_right _ _) h2,
        le_trans (le_max_right _ _) h3⟩
    · exact ih _ v hv2

/-- The single-axis bound: with true bounds `a ≤ t ≤ b`, the clamped
linear map stays within `[0, 1]` and its divisor is positive. -/
theorem clamp_ratio_bounds {a b t : ℚ} (h1 : a ≤ t) (h2 : t ≤ b) :
    0 < clampAxis (b - a) ∧ 0 ≤ (t - a) / clampAxis (b - a) ∧
      (t - a) / clampAxis (b - a) ≤ 1 := by
  unfold clampAxis
  by_cases hd : b - a < 1 / 1000000
  · rw [if_pos hd]
    refine ⟨by norm_num, ?_, ?_⟩
    · simp only [div_one]
      linarith
    · simp only [div_one]
      linarith
  · rw [if_neg hd]
    push_neg at hd
    have hpos : (0 : ℚ) < b - a := by linarith
    refine ⟨hpos, div_nonneg (by linarith) (le_of_lt hpos), ?_⟩
    rw [div_le_one hpos]
    linarith

/-- C9: for every mesh vertex, the generated UV pair lies in
`[0,1] × [0,1]`; the computation selects an axis whose clamped extent is
maximal and maps the two other axes linearly with positive divisors
(clamping each degenerate extent to 1, so no division by zero occurs and
the computation is total). -/
theorem C9_generateUV_bounds (vs : List Vec3) (v : Vec3) (hv : v ∈ vs) :
    (0 ≤ (generateUV (minBounds vs) (maxBounds vs) v).1 ∧
      (generateUV (minBounds vs) (maxBounds vs) v).1 ≤ 1 ∧
      0 ≤ (generateUV (minBounds vs) (maxBounds vs) v).2 ∧
      (generateUV (minBounds vs) (maxBounds vs) v).2 ≤ 1) ∧
    (∃ sx sy sz, sx = clampAxis ((maxBounds vs).x - (minBounds vs).x) ∧
      sy = clampAxis ((maxBounds vs).y - (minBounds vs).y) ∧
      sz = clampAxis ((maxBounds vs).z - (minBounds vs).z) ∧
      ((sy ≤ sx ∧ sz ≤ sx ∧ 0 < sy ∧ 0 < sz ∧
          generateUV (minBounds vs) (maxBounds vs) v =
            ((v.y - (minBounds vs).y) / sy, (v.z - (minBounds vs).z) / sz)) ∨
        (sx ≤ sy ∧ sz ≤ sy ∧ 0 < sx ∧ 0 < sz ∧
          generateUV (minBounds vs) (maxBounds vs) v =
            ((v.x - (minBounds vs).x) / sx, (v.z - (minBounds vs).z) / sz)) ∨
        (sx ≤ sz ∧ sy ≤ sz ∧ 0 < sx ∧ 0 < sy ∧
          generateUV (minBounds vs) (maxBounds vs) v =
            ((v.x - (minBounds vs).x) / sx, (v.y - (minBounds vs).y) / sy)))) := by
  obtain ⟨hminx, hminy, hminz⟩ := minBounds_le vs v hv
  obtain ⟨hmaxx, hmaxy, hmaxz⟩ := le_maxBounds vs v hv
  obtain ⟨hpx, hx0, hx1⟩ := clamp_ratio_bounds hminx hmaxx
  obtain ⟨hpy, hy0, hy1⟩ := clamp_ratio_bounds hminy hmaxy
  obtain ⟨hpz, hz0, hz1⟩ := clamp_ratio_bounds hminz hmaxz
  set sx := clampAxis ((maxBounds vs).x - (minBounds vs).x) with hsx
  set sy := clampAxis ((maxBounds vs).y - (minBounds vs).y) with hsy
  set sz := clampAxis ((maxBounds vs).z - (minBounds vs).z) with hsz
  have hgen : generateUV (minBounds vs) (maxBounds vs) v =
      if sy ≤ sx ∧ sz ≤ sx then
        ((v.y - (minBounds vs).y) / sy, (v.z - (minBounds vs).z) / sz)
      else if sx ≤ sy ∧ sz ≤ sy then
        ((v.x - (minBounds vs).x) / sx, (v.z - (minBounds vs).z) / sz)
      else ((v.x - (minBounds vs).x) / sx, (v.y - (minBounds vs).y) / sy) := by
    rw [generateUV]
  rw [hgen]
  refine ⟨?_, sx, sy, sz, rfl, rfl, rfl, ?_⟩
  · by_cases hc1 : sy ≤ sx ∧ sz ≤ sx
    · rw [if_pos hc1]
      exact ⟨hy0, hy1, hz0, hz1⟩
    · rw [if_neg hc1]
      by_cases hc2 : sx ≤ sy ∧ sz ≤ sy
      · rw [if_pos hc2]
        exact ⟨hx0, hx1, hz0, hz1⟩
      · rw [if_neg hc2]
        exact ⟨hx0, hx1, hy0, hy1⟩
  · by_cases hc1 : sy ≤ sx ∧ sz ≤ sx
    · rw [if_pos hc1]
      exact Or.inl ⟨hc1.1, hc1.2, hpy, hpz, rfl⟩
    · rw [if_neg hc1]
      by_cases hc2 : sx ≤ sy ∧ sz ≤ sy
      · rw [if_pos hc2]
        exact Or.inr (Or.inl ⟨hc2.1, hc2.2, hpx, hpz, rfl⟩)
      · rw [if_neg hc2]
        have hmax : sx ≤ sz ∧ sy ≤ sz := by
          rcases le_or_lt sy sx with hxy | hxy
          · have hzx : ¬ sz ≤ sx := fun hz => hc1 ⟨hxy, hz⟩
            have := lt_of_not_le hzx
            exact ⟨le_of_lt this, le_trans hxy (le_of_lt this)⟩
          · have hzy : ¬ sz ≤ sy := fun hz => hc2 ⟨le_of_lt hxy, hz⟩
            have := lt_of_not_le hzy
            exact ⟨le_trans (le_of_lt hxy) (le_of_lt this), le_of_lt this⟩
        exact Or.inr (Or.inr ⟨hmax.1, hmax.2, hpx, hpy, rfl⟩)

/-- Witness for C9: a two-vertex mesh. -/
theorem C9_witness :
    0 ≤ (generateUV (minBounds [⟨0, 0, 0⟩, ⟨2, 1, 1⟩]) (maxBounds [⟨0, 0, 0⟩, ⟨2, 1, 1⟩])
        ⟨2, 1, 1⟩).1 ∧
    (generateUV (minBounds [⟨0, 0, 0⟩, ⟨2, 1, 1⟩]) (maxBounds [⟨0, 0, 0⟩, ⟨2, 1, 1⟩])
        ⟨2, 1, 1⟩).1 ≤ 1 ∧
    0 ≤ (generateUV (minBounds [⟨0, 0, 0⟩, ⟨2, 1, 1⟩]) (maxBounds [⟨0, 0, 0⟩, ⟨2, 1, 1⟩])
        ⟨2, 1, 1⟩).2 ∧
    (generateUV (minBounds [⟨0, 0, 0⟩, ⟨2, 1, 1⟩]) (maxBounds [⟨0, 0, 0⟩, ⟨2, 1, 1⟩])
        ⟨2, 1, 1⟩).2 ≤ 1 :=
  (C9_generateUV_bounds [⟨0, 0, 0⟩, ⟨2, 1, 1⟩] ⟨2, 1, 1⟩ (by simp)).1

/-! ## Material-based splitting (`IFCImporter::SplitMeshByMaterials`)

Inputs are the merged `vertices`, the triangle list `faces` (each
`aiFace` with `mNumIndices = 3`) and the per-face `materialIndices`.
The C++ groups face indices by material in `materialToFaceIndices`
(an `unordered_map`; buckets are modelled in first-occurrence order,
within each bucket face indices ascend as in the filling loop), then per
bucket rebuilds a sub-mesh with a local 0-based vertex remap
(`vertexRemapping`). `origOfLocal` is the ghost inverse of that remap
(local slot ↦ original vertex index), used to state the claims. -/

structure Face3 where
  i0 : Nat
  i1 : Nat
  i2 : Nat
deriving DecidableEq

/-- The `mIndices` array of a face (`mNumIndices = 3`). -/
def Face3.indices (f : Face3) : List Nat := [f.i0, f.i1, f.i2]

/-- Bucket keys of `materialToFaceIndices`, in first-occurrence order. -/
def distinctMaterials (mats : List Nat) : List Nat :=
  mats.foldl (fun acc m => if m ∈ acc then acc else acc ++ [m]) []

/-- First-match association lookup on `vertexRemapping`. -/
def lookupNat : List (Nat × Nat) → Nat → Option Nat
  | [], _ => none
  | p :: rest, k => if p.1 = k then some p.2 else lookupNat rest k

structure SplitAcc where
  remap : List (Nat × Nat)
  origOfLocal : List Nat
  subVerts : List Vec3

def emptyAcc : SplitAcc := ⟨[], [], []⟩

/-- One vertex-index lookup of the splitting loop: reuse the cached local
index or append the vertex (`subVertices.push_back(vertices[orig])`). -/
def addIndex (vertices : List Vec3) (acc : SplitAcc) (o : Nat) : SplitAcc × Nat :=
  match lookupNat acc.remap o with
  | some l => (acc, l)
  | none =>
      (⟨acc.remap ++ [(o, acc.subVerts.length)], acc.origOfLocal ++ [o],
        acc.subVerts ++ [vertices.getD o ⟨0, 0, 0⟩]⟩, acc.subVerts.length)

/-- The `for (unsigned int i = 0; i < 3; ++i)` loop of one face. -/
def addFace (vertices : List Vec3) (acc : SplitAcc) (f : Face3) : SplitAcc × Face3 :=
  let r0 := addIndex vertices acc f.i0
  let r1 := addIndex vertices r0.1 f.i1
  let r2 := addIndex vertices r1.1 f.i2
  (r2.1, ⟨r0.2, r1.2, r2.2⟩)

/-- The `for (size_t faceIdx : faceIndices)` loop of one bucket. -/
def buildFaces (vertices : List Vec3) : SplitAcc → List Face3 → SplitAcc × List Face3
  | acc, [] => (acc, [])
  | acc, f :: fs =>
      let r := addFace vertices acc f
      let rest := buildFaces vertices r.1 fs
      (rest.1, r.2 :: rest.2)

structure SubMesh where
  materialIndex : Nat
  subVerts : List Vec3
  subFaces : List Face3
  origOfLocal : List Nat

/-- The faces of one material bucket, ascending as in the filling loop. -/
def facesForMaterial (m : Nat) (faces : List Face3) (mats : List Nat) : List Face3 :=
  ((faces.zip mats).filter (fun p => p.2 == m)).map Prod.fst

/-- One iteration of the bucket loop of `SplitMeshByMaterials`. -/
def buildSubMesh (vertices : List Vec3) (m : Nat) (faces : List Face3)
    (mats : List Nat) : SubMesh :=
  let r := buildFaces vertices emptyAcc (facesForMaterial m faces mats)
  ⟨m, r.1.subVerts, r.2, r.1.origOfLocal⟩

/-- `IFCImporter::SplitMeshByMaterials`. -/
def splitMeshByMaterials (vertices : List Vec3) (faces : List Face3)
    (mats : List Nat) : List SubMesh :=
  (distinctMaterials mats).map (fun m => buildSubMesh vertices m faces mats)

/-- Remapping a sub-mesh face back to original vertex indices via the
inverse of the local remap. -/
def remapBack (sm : SubMesh) (f : Face3) : Face3 :=
  ⟨sm.origOfLocal.getD f.i0 0, sm.origOfLocal.getD f.i1 0, sm.origOfLocal.getD f.i2 0⟩

/-- Prefixes preserve defined entries. -/
theorem prefix_getElem_eq {α : Type} {l1 l2 : List α} {n : Nat} {a : α}
    (h : l1 <+: l2) (hn : l1[n]? = some a) : l2[n]? = some a := by
  obtain ⟨t, rfl⟩ := h
  have hlen : n < l1.length := by
    by_contra hc
    rw [List.getElem?_eq_none (by omega)] at hn
    exact absurd hn (by simp)
  rw [List.getElem?_append_left hlen]
  exact hn

/-- Invariant of the splitting accumulator: the ghost table and the vertex
array grow in lockstep, and every cached remap entry points at a ghost
slot holding its original index. -/
def AccWF (acc : SplitAcc) : Prop :=
  acc.origOfLocal.length = acc.subVerts.length ∧
    ∀ p ∈ acc.remap, acc.origOfLocal[p.2]? = some p.1

theorem lookupNat_mem {remap : List (Nat × Nat)} {k l : Nat}
    (h : lookupNat remap k = some l) : (k, l) ∈ remap := by
  induction remap with
  | nil => simp [lookupNat] at h
  | cons p rest ih =>
    rw [lookupNat] at h
    split at h
    · rename_i hp
      obtain rfl : p.2 = l := by simpa using h
      exact List.mem_cons.mpr (Or.inl (Prod.ext_iff.mpr ⟨hp.symm, rfl⟩))
    · exact List.mem_cons_of_mem _ (ih h)

theorem addIndex_spec {vertices : List Vec3} {acc : SplitAcc} {o : Nat}
    (hwf : AccWF acc) :
    AccWF (addIndex vertices acc o).1 ∧
      acc.origOfLocal <+: (addIndex vertices acc o).1.origOfLocal ∧
      (addIndex vertices acc o).1.origOfLocal[(addIndex vertices acc o).2]? = some o ∧
      (addIndex vertices acc o).2 < (addIndex vertices acc o).1.subVerts.length := by
  obtain ⟨hlen, hrm⟩ := hwf
  rw [addIndex]
  cases hl : lookupNat acc.remap o with
  | some l =>
    simp only []
    have hmem := lookupNat_mem hl
    have hgot := hrm _ hmem
    refine ⟨⟨hlen, hrm⟩, List.prefix_refl _, hgot, ?_⟩
    have : l < acc.origOfLocal.length := by
      by_contra hc
      rw [List.getElem?_eq_none (by omega)] at hgot
      exact absurd hgot (by simp)
    omega
  | none =>
    simp only []
    refine ⟨⟨by simp [hlen], ?_⟩, ⟨[o], rfl⟩, ?_, ?_⟩
    · intro p hp
      rcases List.mem_append.mp hp with hp1 | hp2
      · exact prefix_getElem_eq ⟨[o], rfl⟩ (hrm _ hp1)
      · simp only [List.mem_singleton] at hp2
        rw [hp2]
        simp only []
        rw [← hlen, List.getElem?_append_right (le_refl _)]
        simp
    · rw [← hlen, List.getElem?_append_right (le_refl _)]
      simp
    · simp

theorem getD_of_getElem? {α : Type} {l : List α} {n : Nat} {a d : α}
    (h : l[n]? = some a) : l.getD n d = a := by
  rw [List.getD_eq_getElem?_getD, h]
  rfl

theorem addFace_eq (vertices : List Vec3) (acc : SplitAcc) (f : Face3) :
    addFace vertices acc f =
      ((addIndex vertices (addIndex vertices (addIndex vertices acc f.i0).1 f.i1).1 f.i2).1,
        ⟨(addIndex vertices acc f.i0).2,
          (addIndex vertices (addIndex vertices acc f.i0).1 f.i1).2,
          (addIndex vertices (addIndex vertices (addIndex vertices acc f.i0).1 f.i1).1 f.i2).2⟩) :=
  rfl

theorem AccWF.lockstep {acc : SplitAcc} (h : AccWF acc) :
    acc.origOfLocal.length = acc.subVerts.length := h.1

theorem addFace_spec {vertices : List Vec3} {acc : SplitAcc} {f : Face3}
    (hwf : AccWF acc) :
    AccWF (addFace vertices acc f).1 ∧
      acc.origOfLocal <+: (addFace vertices acc f).1.origOfLocal ∧
      ((addFace vertices acc f).1.origOfLocal[(addFace vertices acc f).2.i0]? = some f.i0 ∧
        (addFace vertices acc f).1.origOfLocal[(addFace vertices acc f).2.i1]? = some f.i1 ∧
        (addFace vertices acc f).1.origOfLocal[(addFace vertices acc f).2.i2]? = some f.i2) ∧
      ((addFace vertices acc f).2.i0 < (addFace vertices acc f).1.subVerts.length ∧
        (addFace vertices acc f).2.i1 < (addFace vertices acc f).1.subVerts.length ∧
        (addFace vertices acc f).2.i2 < (addFace vertices acc f).1.subVerts.length) := by
  obtain ⟨hwf0, hpre0, hget0, hlt0⟩ := @addIndex_spec vertices acc f.i0 hwf
  obtain ⟨hwf1, hpre1, hget1, hlt1⟩ := @addIndex_spec vertices _ f.i1 hwf0
  obtain ⟨hwf2, hpre2, hget2, hlt2⟩ := @addIndex_spec vertices _ f.i2 hwf1
  rw [addFace_eq]
  dsimp only
  refine ⟨hwf2, (hpre0.trans hpre1).trans hpre2, ⟨?_, ?_, hget2⟩, ⟨?_, ?_, hlt2⟩⟩
  · exact prefix_getElem_eq hpre2 (prefix_getElem_eq hpre1 hget0)
  · exact prefix_getElem_eq hpre2 hget1
  · have hm1 := hpre1.length_le
    have hm2 := hpre2.length_le
    have e0 := hwf0.lockstep
    have e1 := hwf1.lockstep
    have e2 := hwf2.lockstep
    omega
  · have hm2 := hpre2.length_le
    have e1 := hwf1.lockstep
    have e2 := hwf2.lockstep
    omega

theorem buildFaces_spec {vertices : List Vec3} (fs : List Face3) :
    ∀ acc : SplitAcc, AccWF acc →
      AccWF (buildFaces vertices acc fs).1 ∧
      acc.origOfLocal <+: (buildFaces vertices acc fs).1.origOfLocal ∧
      (buildFaces vertices acc fs).2.length = fs.length ∧
      ∀ (k : Nat) (f fl : Face3), fs[k]? = some f →
        (buildFaces vertices acc fs).2[k]? = some fl →
        ((buildFaces vertices acc fs).1.origOfLocal[fl.i0]? = some f.i0 ∧
          (buildFaces vertices acc fs).1.origOfLocal[fl.i1]? = some f.i1 ∧
          (buildFaces vertices acc fs).1.origOfLocal[fl.i2]? = some f.i2) ∧
        (fl.i0 < (buildFaces vertices acc fs).1.subVerts.length ∧
          fl.i1 < (buildFaces vertices acc fs).1.subVerts.length ∧
          fl.i2 < (buildFaces vertices acc fs).1.subVerts.length) := by
  induction fs with
  | nil =>
    intro acc hwf
    refine ⟨hwf, List.prefix_refl _, rfl, ?_⟩
    intro k f fl hk
    simp at hk
  | cons f0 fs ih =>
    intro acc hwf
    obtain ⟨hwfF, hpreF, hgetF, hltF⟩ := @addFace_spec vertices acc f0 hwf
    obtain ⟨hwfR, hpreR, hlenR, hcharR⟩ := ih _ hwfF
    rw [buildFaces]
    simp only []
    refine ⟨hwfR, hpreF.trans hpreR, by simp [hlenR], ?_⟩
    intro k f fl hk hfl
    cases k with
    | zero =>
      obtain rfl : f0 = f := by simpa using hk
      obtain rfl : (addFace vertices acc f0).2 = fl := by simpa using hfl
      have hm := hpreR.length_le
      have e1 := hwfF.lockstep
      have e2 := hwfR.lockstep
      refine ⟨⟨?_, ?_, ?_⟩, by omega, by omega, by omega⟩
      · exact prefix_getElem_eq hpreR hgetF.1
      · exact prefix_getElem_eq hpreR hgetF.2.1
      · exact prefix_getElem_eq hpreR hgetF.2.2
    | succ k =>
      exact hcharR k f fl (by simpa using hk) (by simpa using hfl)

theorem buildSubMesh_material (vertices : List Vec3) (m : Nat) (faces : List Face3)
    (mats : List Nat) : (buildSubMesh vertices m faces mats).materialIndex = m := rfl

/-- One bucket's sub-mesh: remapping its faces back through the ghost
table recovers exactly the bucket's original faces, and every local index
is within the sub-mesh's own vertex array. -/
theorem buildSubMesh_spec (vertices : List Vec3) (m : Nat) (faces : List Face3)
    (mats : List Nat) :
    ((buildSubMesh vertices m faces mats).subFaces).map
        (remapBack (buildSubMesh vertices m faces mats)) = facesForMaterial m faces mats ∧
      ∀ f ∈ (buildSubMesh vertices m faces mats).subFaces,
        f.i0 < (buildSubMesh vertices m faces mats).subVerts.length ∧
        f.i1 < (buildSubMesh vertices m faces mats).subVerts.length ∧
        f.i2 < (buildSubMesh vertices m faces mats).subVerts.length := by
  have hwfe : AccWF emptyAcc := ⟨rfl, by simp [emptyAcc]⟩
  obtain ⟨hwfF, hpre, hlen, hchar⟩ :=
    @buildFaces_spec vertices (facesForMaterial m faces mats) emptyAcc hwfe
  have hsm : buildSubMesh vertices m faces mats =
      ⟨m, (buildFaces vertices emptyAcc (facesForMaterial m faces mats)).1.subVerts,
        (buildFaces vertices emptyAcc (facesForMaterial m faces mats)).2,
        (buildFaces vertices emptyAcc (facesForMaterial m faces mats)).1.origOfLocal⟩ := rfl
  rw [hsm]
  dsimp only
  constructor
  · apply List.ext_getElem?
    intro n
    rw [List.getElem?_map]
    cases hn : (buildFaces vertices emptyAcc (facesForMaterial m faces mats)).2[n]? with
    | none =>
      have hnl : (buildFaces vertices emptyAcc (facesForMaterial m faces mats)).2.length ≤ n := by
        by_contra hc
        rw [List.getElem?_eq_getElem (by omega)] at hn
        exact absurd hn (by simp)
      rw [List.getElem?_eq_none (by omega)]
      rfl
    | some fl =>
      have hnl : n < (buildFaces vertices emptyAcc (facesForMaterial m faces mats)).2.length := by
        by_contra hc
        rw [List.getElem?_eq_none (by omega)] at hn
        exact absurd hn (by simp)
      have hnf : n < (facesForMaterial m faces mats).length := by omega
      obtain ⟨f, hf⟩ : ∃ f, (facesForMaterial m faces mats)[n]? = some f :=
        ⟨_, List.getElem?_eq_getElem hnf⟩
      obtain ⟨⟨hg0, hg1, hg2⟩, _⟩ := hchar n f fl hf hn
      rw [hf]
      have : remapBack
          ⟨m, (buildFaces vertices emptyAcc (facesForMaterial m faces mats)).1.subVerts,
            (buildFaces vertices emptyAcc (facesForMaterial m faces mats)).2,
            (buildFaces vertices emptyAcc (facesForMaterial m faces mats)).1.origOfLocal⟩ fl = f := by
        cases f with
        | mk a b c =>
          simp only [remapBack]
          rw [getD_of_getElem? hg0, getD_of_getElem? hg1, getD_of_getElem? hg2]
      rw [Option.map_some', this]
  · intro f hf
    obtain ⟨n, hn⟩ := List.mem_iff_getElem?.mp hf
    have hnl : n < (buildFaces vertices emptyAcc (facesForMaterial m faces mats)).2.length := by
      by_contra hc
      rw [List.getElem?_eq_none (by omega)] at hn
      exact absurd hn (by simp)
    have hnf : n < (facesForMaterial m faces mats).length := by omega
    obtain ⟨f0, hf0⟩ : ∃ f0, (facesForMaterial m faces mats)[n]? = some f0 :=
      ⟨_, List.getElem?_eq_getElem hnf⟩
    exact (hchar n f0 f hf0 hn).2

theorem distinctMaterials_spec (mats : List Nat) :
    (distinctMaterials mats).Nodup ∧ ∀ m, m ∈ distinctMaterials mats ↔ m ∈ mats := by
  have aux : ∀ (l acc : List Nat), acc.Nodup →
      (l.foldl (fun acc m => if m ∈ acc then acc else acc ++ [m]) acc).Nodup ∧
      ∀ m, m ∈ l.foldl (fun acc m => if m ∈ acc then acc else acc ++ [m]) acc ↔
        m ∈ acc ∨ m ∈ l := by
    intro l
    induction l with
    | nil =>
      intro acc hacc
      refine ⟨hacc, ?_⟩
      intro m
      simp
    | cons a l ih =>
      intro acc hacc
      rw [List.foldl_cons]
      by_cases ha : a ∈ acc
      · rw [if_pos ha]
        obtain ⟨hn, hm⟩ := ih acc hacc
        refine ⟨hn, ?_⟩
        intro m
        rw [hm m]
        constructor
        · rintro (h | h)
          · exact Or.inl h
          · exact Or.inr (List.mem_cons_of_mem _ h)
        · rintro (h | h)
          · exact Or.inl h
          · rcases List.mem_cons.mp h with rfl | h2
            · exact Or.inl ha
            · exact Or.inr h2
      · rw [if_neg ha]
        obtain ⟨hn, hm⟩ := ih (acc ++ [a]) (by simp [List.nodup_append, hacc, ha])
        refine ⟨hn, ?_⟩
        intro m
        rw [hm m]
        constructor
        · rintro (h | h)
          · rcases List.mem_append.mp h with h2 | h2
            · exact Or.inl h2
            · simp only [List.mem_singleton] at h2
              exact Or.inr (h2 ▸ List.mem_cons_self _ _)
          · exact Or.inr (List.mem_cons_of_mem _ h)
        · rintro (h | h)
          · exact Or.inl (List.mem_append.mpr (Or.inl h))
          · rcases List.mem_cons.mp h with rfl | h2
            · exact Or.inl (List.mem_append.mpr (Or.inr (List.mem_singleton.mpr rfl)))
            · exact Or.inr h2
  obtain ⟨hn, hm⟩ := aux mats [] List.nodup_nil
  refine ⟨hn, ?_⟩
  intro m
  rw [distinctMaterials, hm m]
  simp

theorem flatMap_congr_mem {α β : Type} {f g : α → List β} (ms : List α)
    (h : ∀ a ∈ ms, f a = g a) : ms.flatMap f = ms.flatMap g := by
  induction ms with
  | nil => rfl
  | cons a rest ih =>
    rw [List.flatMap_cons, List.flatMap_cons, h a (List.mem_cons_self _ _),
      ih (fun b hb => h b (List.mem_cons_of_mem _ hb))]

theorem flatMap_map_out {α β γ : Type} (ms : List α) (f : α → List β) (g : β → γ) :
    ms.flatMap (fun a => (f a).map g) = (ms.flatMap f).map g := by
  induction ms with
  | nil => rfl
  | cons a rest ih =>
    rw [List.flatMap_cons, List.flatMap_cons, List.map_append, ih]

/-- Distributing a list over pairwise-disjoint filters by its second
component is a permutation of the list. -/
theorem flatMap_filter_perm (ms : List Nat) :
    ∀ l : List (Face3 × Nat), ms.Nodup → (∀ p ∈ l, p.2 ∈ ms) →
      (ms.flatMap (fun m => l.filter (fun p => p.2 == m))).Perm l := by
  induction ms with
  | nil =>
    intro l hnd hcond
    have : l = [] := List.eq_nil_iff_forall_not_mem.mpr (fun p hp => by
      have := hcond p hp
      simp at this)
    rw [this]
    exact List.Perm.refl _
  | cons m rest ih =>
    intro l hnd hcond
    have hmrest : m ∉ rest := (List.nodup_cons.mp hnd).1
    have hrest : rest.Nodup := (List.nodup_cons.mp hnd).2
    rw [List.flatMap_cons]
    have hcong : rest.flatMap (fun m2 => l.filter (fun p => p.2 == m2)) =
        rest.flatMap (fun m2 =>
          (l.filter (fun p => !(p.2 == m))).filter (fun p => p.2 == m2)) := by
      apply flatMap_congr_mem
      intro m2 hm2
      have hne : m2 ≠ m := fun h => hmrest (h ▸ hm2)
      rw [List.filter_filter]
      apply List.filter_congr
      intro x hx
      by_cases hx2 : x.2 = m2
      · have : (x.2 == m) = false := by
          rw [beq_eq_false_iff_ne, hx2]
          exact hne
        simp [hx2, this, hne]
      · have : (x.2 == m2) = false := by
          rw [beq_eq_false_iff_ne]
          exact hx2
        simp [this]
    rw [hcong]
    have hsub : ∀ p ∈ l.filter (fun p => !(p.2 == m)), p.2 ∈ rest := by
      intro p hp
      obtain ⟨hpl, hpm⟩ := List.mem_filter.mp hp
      have := hcond p hpl
      rcases List.mem_cons.mp this with h | h
      · exfalso
        rw [h] at hpm
        simp at hpm
      · exact h
    have ih2 := ih (l.filter (fun p => !(p.2 == m))) hrest hsub
    exact (List.Perm.append_left _ ih2).trans (List.filter_append_perm _ l)

/-- C1: when the triangles of an element resolve to more than one distinct
material slot, `SplitMeshByMaterials` emits exactly one sub-mesh per
distinct slot (in bucket order, without repetition), and the concatenation
of the sub-meshes' triangles remapped back to original vertex indices is a
permutation of the unsplit triangle list — no triangle dropped or
duplicated. -/
theorem C1_split_mesh_partition (vertices : List Vec3) (faces : List Face3)
    (mats : List Nat) (hlen : mats.length = faces.length)
    (hmulti : 1 < (distinctMaterials mats).length) :
    ((splitMeshByMaterials vertices faces mats).map (fun sm => sm.materialIndex) =
      distinctMaterials mats) ∧
    (distinctMaterials mats).Nodup ∧
    ((splitMeshByMaterials vertices faces mats).flatMap
      (fun sm => sm.subFaces.map (remapBack sm))).Perm faces := by
  obtain ⟨hnd, hmem⟩ := distinctMaterials_spec mats
  refine ⟨?_, hnd, ?_⟩
  · rw [splitMeshByMaterials, List.map_map]
    have : (fun sm : SubMesh => sm.materialIndex) ∘
        (fun m => buildSubMesh vertices m faces mats) = id := by
      funext m
      exact buildSubMesh_material vertices m faces mats
    rw [this, List.map_id]
  · rw [splitMeshByMaterials, List.flatMap_map]
    have hstep1 : (distinctMaterials mats).flatMap
        (fun m => (buildSubMesh vertices m faces mats).subFaces.map
          (remapBack (buildSubMesh vertices m faces mats))) =
        (distinctMaterials mats).flatMap (fun m => facesForMaterial m faces mats) := by
      apply flatMap_congr_mem
      intro m hm
      exact (buildSubMesh_spec vertices m faces mats).1
    rw [hstep1]
    have hstep2 : (distinctMaterials mats).flatMap (fun m => facesForMaterial m faces mats) =
        ((distinctMaterials mats).flatMap
          (fun m => (faces.zip mats).filter (fun p => p.2 == m))).map Prod.fst := by
      rw [← flatMap_map_out]
      rfl
    rw [hstep2]
    have hperm := flatMap_filter_perm (distinctMaterials mats) (faces.zip mats) hnd
      (fun p hp => (hmem p.2).mpr (List.of_mem_zip hp).2)
    have := hperm.map Prod.fst
    rw [List.map_fst_zip faces mats (by omega)] at this
    exact this

/-- C10: for any inputs, every sub-mesh face emitted by
`SplitMeshByMaterials` has exactly 3 indices, each strictly below that
sub-mesh's own vertex count: the local remap is closed over the sub-mesh's
vertex array. -/
theorem C10_split_faces_closed (vertices : List Vec3) (faces : List Face3)
    (mats : List Nat) :
    ∀ sm ∈ splitMeshByMaterials vertices faces mats, ∀ f ∈ sm.subFaces,
      (Face3.indices f).length = 3 ∧ ∀ i ∈ Face3.indices f, i < sm.subVerts.length := by
  intro sm hsm f hf
  obtain ⟨m, hm, rfl⟩ := List.mem_map.mp hsm
  obtain ⟨h0, h1, h2⟩ := (buildSubMesh_spec vertices m faces mats).2 f hf
  refine ⟨rfl, ?_⟩
  intro i hi
  rcases List.mem_cons.mp hi with rfl | hi2
  · exact h0
  · rcases List.mem_cons.mp hi2 with rfl | hi3
    · exact h1
    · rcases List.mem_cons.mp hi3 with rfl | hi4
      · exact h2
      · simp at hi4

/-- Witness for C1: two triangles over four vertices with two distinct
material slots. -/
theorem C1_witness :
    ((splitMeshByMaterials [⟨0, 0, 0⟩, ⟨1, 0, 0⟩, ⟨0, 1, 0⟩, ⟨0, 0, 1⟩]
        [⟨0, 1, 2⟩, ⟨1, 2, 3⟩] [0, 1]).map (fun sm => sm.materialIndex) =
      distinctMaterials [0, 1]) ∧
    (distinctMaterials [0, 1]).Nodup ∧
    ((splitMeshByMaterials [⟨0, 0, 0⟩, ⟨1, 0, 0⟩, ⟨0, 1, 0⟩, ⟨0, 0, 1⟩]
        [⟨0, 1, 2⟩, ⟨1, 2, 3⟩] [0, 1]).flatMap
      (fun sm => sm.subFaces.map (remapBack sm))).Perm [⟨0, 1, 2⟩, ⟨1, 2, 3⟩] :=
  C1_split_mesh_partition [⟨0, 0, 0⟩, ⟨1, 0, 0⟩, ⟨0, 1, 0⟩, ⟨0, 0, 1⟩]
    [⟨0, 1, 2⟩, ⟨1, 2, 3⟩] [0, 1] rfl (by decide)

/-- Witness for C10: the first sub-mesh of that same split. -/
theorem C10_witness :
    (Face3.indices ⟨0, 1, 2⟩).length = 3 ∧
    ∀ i ∈ Face3.indices ⟨0, 1, 2⟩,
      i < (buildSubMesh [⟨0, 0, 0⟩, ⟨1, 0, 0⟩, ⟨0, 1, 0⟩, ⟨0, 0, 1⟩]
        0 [⟨0, 1, 2⟩, ⟨1, 2, 3⟩] [0, 1]).subVerts.length :=
  C10_split_faces_closed [⟨0, 0, 0⟩, ⟨1, 0, 0⟩, ⟨0, 1, 0⟩, ⟨0, 0, 1⟩]
    [⟨0, 1, 2⟩, ⟨1, 2, 3⟩] [0, 1]
    (buildSubMesh [⟨0, 0, 0⟩, ⟨1, 0, 0⟩, ⟨0, 1, 0⟩, ⟨0, 0, 1⟩]
      0 [⟨0, 1, 2⟩, ⟨1, 2, 3⟩] [0, 1])
    (by
      rw [splitMeshByMaterials]
      have hd : distinctMaterials [0, 1] = [0, 1] := rfl
      rw [hd, List.map_cons]
      exact List.mem_cons_self _ _)
    ⟨0, 1, 2⟩
    (by
      have hsf : (buildSubMesh [⟨0, 0, 0⟩, ⟨1, 0, 0⟩, ⟨0, 1, 0⟩, ⟨0, 0, 1⟩]
          0 [⟨0, 1, 2⟩, ⟨1, 2, 3⟩] [0, 1]).subFaces = [⟨0, 1, 2⟩] := by
        rfl
      rw [hsf]
      exact List.mem_singleton.mpr rfl)

/-! ## Spatial hierarchy and mesh assignment
(`IFCImporter::BuildIFCSpatialHierarchy` / `AssignMeshesToHierarchy`)

`aiNode` is modelled as a rose tree of (name, referenced mesh indices,
children). Tree surgery positions are child-index paths from the root;
appending children never disturbs existing paths. -/

inductive ANode where
  | mk (name : List Char) (meshes : List Nat) (children : List ANode)

def ANode.name : ANode → List Char
  | .mk n _ _ => n

def ANode.meshes : ANode → List Nat
  | .mk _ ms _ => ms

def ANode.children : ANode → List ANode
  | .mk _ _ cs => cs

mutual

/-- All mesh indices referenced anywhere in the tree (the full-tree
traversal of the invariant). -/
def collectMeshes : ANode → List Nat
  | .mk _ ms cs => ms ++ collectMeshesList cs

def collectMeshesList : List ANode → List Nat
  | [] => []
  | c :: cs => collectMeshes c ++ collectMeshesList cs

end

mutual

/-- Preorder search (`findStoreyByExpressID`'s traversal: the node itself,
then its children left to right); returns the child-index path of the
first node whose name satisfies `p`. -/
def findPath (p : List Char → Bool) : ANode → Option (List Nat)
  | .mk n _ cs => if p n then some [] else findPathList p cs 0

def findPathList (p : List Char → Bool) : List ANode → Nat → Option (List Nat)
  | [], _ => none
  | c :: cs, i =>
      match findPath p c with
      | some path => some (i :: path)
      | none => findPathList p cs (i + 1)

end

/-- Node addressed by a child-index path. -/
def getNodeAt : ANode → List Nat → Option ANode
  | t, [] => some t
  | .mk _ _ cs, i :: rest =>
      match cs[i]? with
      | some c => getNodeAt c rest
      | none => none

theorem getNodeAt_nil (t : ANode) : getNodeAt t [] = some t := by
  cases t
  rfl

theorem getNodeAt_cons (n : List Char) (ms : List Nat) (cs : List ANode)
    (i : Nat) (rest : List Nat) :
    getNodeAt (.mk n ms cs) (i :: rest) =
      match cs[i]? with
      | some c => getNodeAt c rest
      | none => none := rfl

theorem getNodeAt_cons_of_getElem {n : List Char} {ms : List Nat} {cs : List ANode}
    {i : Nat} {c : ANode} (rest : List Nat) (h : cs[i]? = some c) :
    getNodeAt (.mk n ms cs) (i :: rest) = getNodeAt c rest := by
  rw [getNodeAt_cons, h]

mutual

/-- Append `leaves` to the child list of the node at `path` (the
`newChildren` reallocation of the source); an unreachable path leaves the
tree unchanged. -/
def attachAt : ANode → List Nat → List ANode → ANode
  | .mk n ms cs, [], leaves => .mk n ms (cs ++ leaves)
  | .mk n ms cs, i :: rest, leaves => .mk n ms (attachAtList cs i rest leaves)

def attachAtList : List ANode → Nat → List Nat → List ANode → List ANode
  | [], _, _, _ => []
  | c :: cs, 0, rest, leaves => attachAt c rest leaves :: cs
  | c :: cs, i + 1, rest, leaves => c :: attachAtList cs i rest leaves

end

theorem collectMeshesList_append (l1 l2 : List ANode) :
    collectMeshesList (l1 ++ l2) = collectMeshesList l1 ++ collectMeshesList l2 := by
  induction l1 with
  | nil => rfl
  | cons c cs ih => rw [List.cons_append, collectMeshesList, ih, collectMeshesList,
      List.append_assoc]

theorem attachAt_invalid (path : List Nat) :
    ∀ (t : ANode) (leaves : List ANode), getNodeAt t path = none →
      attachAt t path leaves = t := by
  induction path with
  | nil =>
    intro t leaves h
    rw [getNodeAt] at h
    exact absurd h (by simp)
  | cons i rest ih =>
    intro t leaves h
    cases t with
    | mk n ms cs =>
      rw [getNodeAt] at h
      rw [attachAt]
      suffices hs : attachAtList cs i rest leaves = cs by rw [hs]
      induction cs generalizing i with
      | nil => rfl
      | cons c cs ihc =>
        cases i with
        | zero =>
          have hc : getNodeAt c rest = none := by simpa using h
          rw [attachAtList, ih c leaves hc]
        | succ i =>
          rw [attachAtList, ihc i (by simpa using h)]

theorem attachAt_perm (path : List Nat) :
    ∀ (t : ANode) (leaves : List ANode) (x : ANode), getNodeAt t path = some x →
      (collectMeshes (attachAt t path leaves)).Perm
        (collectMeshes t ++ collectMeshesList leaves) := by
  induction path with
  | nil =>
    intro t leaves x h
    cases t with
    | mk n ms cs =>
      rw [attachAt, collectMeshes, collectMeshes, collectMeshesList_append,
        List.append_assoc]
  | cons i rest ih =>
    intro t leaves x h
    cases t with
    | mk n ms cs =>
      rw [getNodeAt] at h
      rw [attachAt, collectMeshes, collectMeshes]
      have hlist : ∀ (cs : List ANode) (i : Nat),
          (match cs[i]? with
            | some c => getNodeAt c rest
            | none => none) = some x →
          (collectMeshesList (attachAtList cs i rest leaves)).Perm
            (collectMeshesList cs ++ collectMeshesList leaves) := by
        intro cs
        induction cs with
        | nil =>
          intro i h2
          simp at h2
        | cons c cs ihc =>
          intro i h2
          cases i with
          | zero =>
            have hc : getNodeAt c rest = some x := by simpa using h2
            rw [attachAtList, collectMeshesList, collectMeshesList, List.append_assoc]
            refine ((ih c leaves x hc).append_right _).trans ?_
            rw [List.append_assoc]
            exact List.Perm.append_left _ List.perm_append_comm
          | succ i =>
            have h3 : (match cs[i]? with
                | some c => getNodeAt c rest
                | none => none) = some x := by simpa using h2
            rw [attachAtList, collectMeshesList, collectMeshesList, List.append_assoc]
            exact List.Perm.append_left _ (ihc i h3)
      rw [List.append_assoc]
      exact List.Perm.append_left _ (hlist cs i h)

theorem findPathList_some {p : List Char → Bool} :
    ∀ (cs : List ANode) (i : Nat) (ys : List Nat), findPathList p cs i = some ys →
      ∃ k c zs, cs[k]? = some c ∧ findPath p c = some zs ∧ ys = (i + k) :: zs := by
  intro cs
  induction cs with
  | nil =>
    intro i ys h
    rw [findPathList] at h
    exact absurd h (by simp)
  | cons c cs ih =>
    intro i ys h
    rw [findPathList] at h
    cases hf : findPath p c with
    | some path =>
      rw [hf] at h
      refine ⟨0, c, path, by simp, hf, ?_⟩
      simpa using h.symm
    | none =>
      rw [hf] at h
      obtain ⟨k, c2, zs, hk, hfp, hys⟩ := ih (i + 1) ys h
      refine ⟨k + 1, c2, zs, by simpa using hk, hfp, ?_⟩
      rw [hys]
      congr 1
      omega

/-- A path returned by the preorder search addresses a real node. -/
theorem findPath_valid {p : List Char → Bool} :
    ∀ (path : List Nat) (t : ANode), findPath p t = some path →
      ∃ x, getNodeAt t path = some x := by
  intro path
  induction path with
  | nil =>
    intro t h
    exact ⟨t, getNodeAt_nil t⟩
  | cons j rest ih =>
    intro t h
    cases t with
    | mk n ms cs =>
      rw [findPath] at h
      split at h
      · exact absurd h (by simp)
      · obtain ⟨k, c, zs, hk, hfp, hys⟩ := findPathList_some cs 0 _ h
        obtain rfl : k = j := by
          have := hys
          simp at this
          omega
        obtain rfl : zs = rest := by simpa using hys.symm
        obtain ⟨x, hx⟩ := ih c hfp
        refine ⟨x, ?_⟩
        rw [getNodeAt_cons_of_getElem _ hk]
        exact hx

/-- `findStoreyByExpressID`'s match on one node name: the literal
`IFC_BuildingStorey` marker or the two hardcoded storey-name fallbacks. -/
def storeyMatch (sid : Nat) (name : List Char) : Bool :=
  containsSub "IFC_BuildingStorey".toList name ||
  (containsSub "Erdgeschoss".toList name && sid == 596) ||
  (containsSub "Dachgeschoss".toList name && sid == 211330)

/-- A grandchild qualifies when one of its children carries a
`IFC_Building`/`Building` name (`FindSemanticParentForUnassignedItems`). -/
def hasBuildingChild (g : ANode) : Bool :=
  g.children.any (fun ch => containsSub "IFC_Building".toList ch.name ||
    containsSub "Building".toList ch.name)

def findBuildingGrandchild : List ANode → Option Nat
  | [] => none
  | g :: gs => if hasBuildingChild g then some 0 else (findBuildingGrandchild gs).map (· + 1)

/-- `FindSemanticParentForUnassignedItems` as a path: the first grandchild
of the root's first child that has Building-named children, else that
first child, else the root itself. -/
def semanticParentPath (t : ANode) : List Nat :=
  match t.children with
  | [] => []
  | c :: _ =>
      match findBuildingGrandchild c.children with
      | some j => [0, j]
      | none => [0]

theorem findBuildingGrandchild_valid :
    ∀ (gs : List ANode) (j : Nat), findBuildingGrandchild gs = some j →
      ∃ g, gs[j]? = some g := by
  intro gs
  induction gs with
  | nil =>
    intro j h
    rw [findBuildingGrandchild] at h
    exact absurd h (by simp)
  | cons g gs ih =>
    intro j h
    rw [findBuildingGrandchild] at h
    split at h
    · obtain rfl : 0 = j := by simpa using h
      exact ⟨g, by simp⟩
    · cases hf : findBuildingGrandchild gs with
      | none =>
        rw [hf] at h
        exact absurd h (by simp)
      | some j2 =>
        rw [hf] at h
        obtain rfl : j2 + 1 = j := by simpa using h
        obtain ⟨g2, hg2⟩ := ih j2 hf
        exact ⟨g2, by simpa using hg2⟩

theorem semanticParentPath_valid (t : ANode) :
    ∃ x, getNodeAt t (semanticParentPath t) = some x := by
  cases t with
  | mk n ms cs =>
    cases cs with
    | nil =>
      refine ⟨ANode.mk n ms [], ?_⟩
      rw [show semanticParentPath (ANode.mk n ms []) = [] from rfl, getNodeAt_nil]
    | cons c cs2 =>
      cases c with
      | mk n2 ms2 cs3 =>
        have hsem : semanticParentPath (ANode.mk n ms (ANode.mk n2 ms2 cs3 :: cs2)) =
            match findBuildingGrandchild cs3 with
            | some j => [0, j]
            | none => [0] := rfl
        rw [hsem]
        cases hf : findBuildingGrandchild cs3 with
        | none =>
          dsimp only
          refine ⟨ANode.mk n2 ms2 cs3, ?_⟩
          rw [getNodeAt_cons_of_getElem []
            (by simp : (ANode.mk n2 ms2 cs3 :: cs2)[0]? = some (ANode.mk n2 ms2 cs3)),
            getNodeAt_nil]
        | some j =>
          dsimp only
          obtain ⟨g, hg⟩ := findBuildingGrandchild_valid cs3 j hf
          refine ⟨g, ?_⟩
          rw [getNodeAt_cons_of_getElem [j]
            (by simp : (ANode.mk n2 ms2 cs3 :: cs2)[0]? = some (ANode.mk n2 ms2 cs3)),
            getNodeAt_cons_of_getElem [] hg, getNodeAt_nil]

/-! The grouping of meshes by containing storey
(`storeyToMeshes` / `unassignedMeshes`). Buckets are kept in
first-occurrence order of their storey id. -/

def bucketAdd : List (Nat × List Nat) → Nat → Nat → List (Nat × List Nat)
  | [], sid, i => [(sid, [i])]
  | b :: rest, sid, i =>
      if b.1 = sid then (b.1, b.2 ++ [i]) :: rest else b :: bucketAdd rest sid i

/-- One mesh of the grouping loop: metadata lookup, then containment
lookup; failures land in `unassignedMeshes`. -/
def groupStep (meta cont : Nat → Option Nat)
    (acc : List (Nat × List Nat) × List Nat) (i : Nat) :
    List (Nat × List Nat) × List Nat :=
  match meta i with
  | none => (acc.1, acc.2 ++ [i])
  | some eid =>
      match cont eid with
      | none => (acc.1, acc.2 ++ [i])
      | some sid => (bucketAdd acc.1 sid i, acc.2)

def groupMeshes (meta cont : Nat → Option Nat) (n : Nat) :
    List (Nat × List Nat) × List Nat :=
  (List.range n).foldl (groupStep meta cont) ([], [])

/-- A mesh leaf node (name = mesh name, one mesh reference). -/
def makeLeaf (meshName : Nat → List Char) (i : Nat) : ANode := .mk (meshName i) [i] []

/-- The per-storey assignment loop: one `findStoreyByExpressID` search per
bucket (root on failure), then all the bucket's mesh leaves appended to
that node; the log records each bucket's parent path. -/
def assignGroups (meshName : Nat → List Char) :
    ANode → List (Nat × List Nat) → ANode × List (List Nat × List Nat)
  | t, [] => (t, [])
  | t, g :: rest =>
      let path := (findPath (storeyMatch g.1) t).getD []
      let t2 := attachAt t path (g.2.map (makeLeaf meshName))
      let r := assignGroups meshName t2 rest
      (r.1, (path, g.2) :: r.2)

/-- `IFCImporter::AssignMeshesToHierarchy`: group all meshes `0..n-1`, hang
each bucket under its found storey node, then hang the unassigned meshes
under the semantic fallback parent. -/
def assignMeshesToHierarchy (meshName : Nat → List Char) (meta cont : Nat → Option Nat)
    (n : Nat) (t : ANode) : ANode × List (List Nat × List Nat) :=
  let g := groupMeshes meta cont n
  let r := assignGroups meshName t g.1
  let fbPath := semanticParentPath r.1
  (attachAt r.1 fbPath (g.2.map (makeLeaf meshName)), r.2 ++ [(fbPath, g.2)])

/-- The nested type-scan tree of `BuildIFCSpatialHierarchy`: one node per
project/site/building/storey/space entity, wired in the fixed canonical
order, no meshes on any structural node. -/
def buildIFCSpatialTree (projectName : List Char)
    (siteNames buildingNames storeyNames spaceNames : List (List Char)) : ANode :=
  .mk projectName []
    (siteNames.map (fun sn => .mk sn []
      (buildingNames.map (fun bn => .mk bn []
        (storeyNames.map (fun tn => .mk tn []
          (spaceNames.map (fun pn => .mk pn [] []))))))))

/-- The flat fallback: the root node references every mesh directly. -/
def flatHierarchy (rootName : List Char) (n : Nat) : ANode :=
  .mk rootName (List.range n) []

theorem collectMeshesList_leaves (meshName : Nat → List Char) (idxs : List Nat) :
    collectMeshesList (idxs.map (makeLeaf meshName)) = idxs := by
  induction idxs with
  | nil => rfl
  | cons i rest ih =>
    rw [List.map_cons, collectMeshesList, ih]
    simp [makeLeaf, collectMeshes, collectMeshesList]

theorem collectMeshesList_map_empty {α : Type} (f : α → ANode) (l : List α)
    (h : ∀ a, collectMeshes (f a) = []) : collectMeshesList (l.map f) = [] := by
  induction l with
  | nil => rfl
  | cons a l ih => rw [List.map_cons, collectMeshesList, h a, ih]; rfl

/-- The type-scan hierarchy references no mesh on any structural node. -/
theorem collectMeshes_buildTree (projectName : List Char)
    (siteNames buildingNames storeyNames spaceNames : List (List Char)) :
    collectMeshes
      (buildIFCSpatialTree projectName siteNames buildingNames storeyNames spaceNames) = [] := by
  rw [buildIFCSpatialTree, collectMeshes, List.nil_append]
  apply collectMeshesList_map_empty
  intro sn
  rw [collectMeshes, List.nil_append]
  apply collectMeshesList_map_empty
  intro bn
  rw [collectMeshes, List.nil_append]
  apply collectMeshesList_map_empty
  intro tn
  rw [collectMeshes, List.nil_append]
  apply collectMeshesList_map_empty
  intro pn
  rfl

theorem attach_at_found_perm (pred : List Char → Bool) (t : ANode) (leaves : List ANode) :
    (collectMeshes (attachAt t ((findPath pred t).getD []) leaves)).Perm
      (collectMeshes t ++ collectMeshesList leaves) := by
  cases hf : findPath pred t with
  | none =>
    simp only [Option.getD_none]
    exact attachAt_perm [] t leaves t (getNodeAt_nil t)
  | some path =>
    simp only [Option.getD_some]
    obtain ⟨x, hx⟩ := findPath_valid path t hf
    exact attachAt_perm path t leaves x hx

theorem assignGroups_perm (meshName : Nat → List Char) :
    ∀ (groups : List (Nat × List Nat)) (t : ANode),
      (collectMeshes (assignGroups meshName t groups).1).Perm
        (collectMeshes t ++ groups.flatMap (fun g => g.2)) := by
  intro groups
  induction groups with
  | nil =>
    intro t
    simp [assignGroups]
  | cons g rest ih =>
    intro t
    simp only [assignGroups]
    refine (ih _).trans ?_
    have h2 := attach_at_found_perm (storeyMatch g.1) t (g.2.map (makeLeaf meshName))
    rw [collectMeshesList_leaves] at h2
    rw [List.flatMap_cons, ← List.append_assoc]
    exact h2.append_right _

theorem bucketAdd_flat_perm (B : List (Nat × List Nat)) (sid i : Nat) :
    ((bucketAdd B sid i).flatMap (fun g => g.2)).Perm
      (B.flatMap (fun g => g.2) ++ [i]) := by
  induction B with
  | nil => simp [bucketAdd]
  | cons b rest ih =>
    rw [bucketAdd]
    by_cases hb : b.1 = sid
    · rw [if_pos hb, List.flatMap_cons, List.flatMap_cons, List.append_assoc,
        List.append_assoc]
      exact List.Perm.append_left _ List.perm_append_comm
    · rw [if_neg hb, List.flatMap_cons, List.flatMap_cons, List.append_assoc]
      exact List.Perm.append_left _ ih

/-- The grouping loop partitions the processed mesh indices between the
storey buckets and the unassigned list: nothing lost, nothing duplicated. -/
theorem groupMeshes_partition (meta cont : Nat → Option Nat) :
    ∀ (l : List Nat) (B : List (Nat × List Nat)) (U : List Nat),
      (((l.foldl (groupStep meta cont) (B, U)).1.flatMap (fun g => g.2)) ++
        (l.foldl (groupStep meta cont) (B, U)).2).Perm
        ((B.flatMap (fun g => g.2) ++ U) ++ l) := by
  intro l
  induction l with
  | nil =>
    intro B U
    simp
  | cons i l ih =>
    intro B U
    rw [List.foldl_cons]
    cases hm : meta i with
    | none =>
      simp only [groupStep, hm]
      refine (ih B (U ++ [i])).trans ?_
      simp [List.append_assoc]
    | some eid =>
      cases hc : cont eid with
      | none =>
        simp only [groupStep, hm, hc]
        refine (ih B (U ++ [i])).trans ?_
        simp [List.append_assoc]
      | some sid =>
        simp only [groupStep, hm, hc]
        refine (ih (bucketAdd B sid i) U).trans ?_
        refine (((bucketAdd_flat_perm B sid i).append_right U).append_right l).trans ?_
        simp only [List.append_assoc, List.singleton_append]
        exact List.Perm.append_left _ List.perm_middle.symm

/-- C2: on the spatial-hierarchy path, after the assignment pass the mesh
indices referenced across the whole tree are exactly `0..n-1`, each
exactly once (the structural tree starts mesh-free, every bucket and every
unassigned mesh is attached exactly once); on the flat-hierarchy fallback
path the root references exactly `0..n-1` once. -/
theorem C2_every_mesh_exactly_one_node (meshName : Nat → List Char)
    (meta cont : Nat → Option Nat) (n : Nat) (projectName rootName : List Char)
    (siteNames buildingNames storeyNames spaceNames : List (List Char)) :
    (collectMeshes (assignMeshesToHierarchy meshName meta cont n
        (buildIFCSpatialTree projectName siteNames buildingNames storeyNames
          spaceNames)).1).Perm (List.range n) ∧
    collectMeshes (flatHierarchy rootName n) = List.range n := by
  constructor
  · simp only [assignMeshesToHierarchy]
    obtain ⟨x, hx⟩ := semanticParentPath_valid
      (assignGroups meshName
        (buildIFCSpatialTree projectName siteNames buildingNames storeyNames spaceNames)
        (groupMeshes meta cont n).1).1
    have h1 := attachAt_perm _ _ ((groupMeshes meta cont n).2.map (makeLeaf meshName)) x hx
    rw [collectMeshesList_leaves] at h1
    refine h1.trans ?_
    have h2 := assignGroups_perm meshName (groupMeshes meta cont n).1
      (buildIFCSpatialTree projectName siteNames buildingNames storeyNames spaceNames)
    refine (h2.append_right _).trans ?_
    rw [collectMeshes_buildTree, List.nil_append]
    have h3 := groupMeshes_partition meta cont (List.range n) [] []
    rw [groupMeshes]
    simpa using h3
  · simp [flatHierarchy, collectMeshes, collectMeshesList]

/-! C3: meshes of one storey share one parent. The grouping is keyed by
storey id, each id having a single bucket, and each bucket triggers exactly
one `findStoreyByExpressID` search whose result node receives all the
bucket's leaves. -/

def lookupBucket : List (Nat × List Nat) → Nat → Option (List Nat)
  | [], _ => none
  | b :: rest, sid => if b.1 = sid then some b.2 else lookupBucket rest sid

theorem lookupBucket_bucketAdd_self (B : List (Nat × List Nat)) (sid i : Nat) :
    lookupBucket (bucketAdd B sid i) sid = some ((lookupBucket B sid).getD [] ++ [i]) := by
  induction B with
  | nil => simp [bucketAdd, lookupBucket]
  | cons b rest ih =>
    rw [bucketAdd]
    by_cases hb : b.1 = sid
    · rw [if_pos hb, lookupBucket, if_pos hb, lookupBucket, if_pos hb]
      rfl
    · rw [if_neg hb, lookupBucket, if_neg hb, lookupBucket, if_neg hb, ih]

theorem lookupBucket_bucketAdd_other (B : List (Nat × List Nat)) {sid sid2 : Nat}
    (i : Nat) (hne : sid2 ≠ sid) :
    lookupBucket (bucketAdd B sid2 i) sid = lookupBucket B sid := by
  induction B with
  | nil => simp [bucketAdd, lookupBucket, hne]
  | cons b rest ih =>
    rw [bucketAdd]
    by_cases hb : b.1 = sid2
    · rw [if_pos hb, lookupBucket, lookupBucket]
      have : ¬ b.1 = sid := by rw [hb]; exact hne
      rw [if_neg this, if_neg this]
    · rw [if_neg hb, lookupBucket, lookupBucket]
      by_cases hb2 : b.1 = sid
      · rw [if_pos hb2, if_pos hb2]
      · rw [if_neg hb2, if_neg hb2, ih]

/-- Mesh `i` sits in the bucket of storey `sid`. -/
def MemBucket (B : List (Nat × List Nat)) (sid i : Nat) : Prop :=
  ∃ idxs, lookupBucket B sid = some idxs ∧ i ∈ idxs

theorem memBucket_bucketAdd {B : List (Nat × List Nat)} {sid i : Nat}
    (h : MemBucket B sid i) (sid2 j : Nat) : MemBucket (bucketAdd B sid2 j) sid i := by
  obtain ⟨idxs, hl, hm⟩ := h
  by_cases he : sid2 = sid
  · subst he
    refine ⟨(lookupBucket B sid2).getD [] ++ [j], lookupBucket_bucketAdd_self B sid2 j, ?_⟩
    rw [hl]
    exact List.mem_append.mpr (Or.inl hm)
  · exact ⟨idxs, by rw [lookupBucket_bucketAdd_other B j he]; exact hl, hm⟩

theorem memBucket_groupStep {B : List (Nat × List Nat)} {U : List Nat} {sid i : Nat}
    (meta cont : Nat → Option Nat) (h : MemBucket B sid i) (j : Nat) :
    MemBucket (groupStep meta cont (B, U) j).1 sid i := by
  rw [groupStep]
  cases meta j with
  | none => dsimp only; exact h
  | some eid =>
    dsimp only
    cases cont eid with
    | none => dsimp only; exact h
    | some sid2 =>
      dsimp only
      exact memBucket_bucketAdd h sid2 j

theorem memBucket_foldl (meta cont : Nat → Option Nat) {sid i : Nat} :
    ∀ (l : List Nat) (acc : List (Nat × List Nat) × List Nat),
      MemBucket acc.1 sid i →
      MemBucket (l.foldl (groupStep meta cont) acc).1 sid i := by
  intro l
  induction l with
  | nil => intro acc h; exact h
  | cons j l ih =>
    intro acc h
    rw [List.foldl_cons]
    exact ih _ (by
      cases acc with
      | mk B U => exact memBucket_groupStep meta cont h j)

/-- After the grouping loop, every mesh whose element is mapped to storey
`sid` sits in the (single) bucket of `sid`. -/
theorem groupMeshes_mem (meta cont : Nat → Option Nat) {i e sid : Nat}
    (hm : meta i = some e) (hc : cont e = some sid) :
    ∀ (l : List Nat) (acc : List (Nat × List Nat) × List Nat), i ∈ l →
      MemBucket (l.foldl (groupStep meta cont) acc).1 sid i := by
  intro l
  induction l with
  | nil =>
    intro acc h
    simp at h
  | cons j l ih =>
    intro acc hmem
    rw [List.foldl_cons]
    rcases List.mem_cons.mp hmem with rfl | h2
    · refine memBucket_foldl meta cont l _ ?_
      cases acc with
      | mk B U =>
        rw [groupStep, hm]
        dsimp only
        rw [hc]
        dsimp only
        refine ⟨(lookupBucket B sid).getD [] ++ [i], lookupBucket_bucketAdd_self B sid i, ?_⟩
        exact List.mem_append.mpr (Or.inr (List.mem_singleton.mpr rfl))
    · exact ih _ h2

theorem lookupBucket_mem {B : List (Nat × List Nat)} {sid : Nat} {idxs : List Nat}
    (h : lookupBucket B sid = some idxs) : (sid, idxs) ∈ B := by
  induction B with
  | nil => simp [lookupBucket] at h
  | cons b rest ih =>
    rw [lookupBucket] at h
    split at h
    · rename_i hb
      obtain rfl : b.2 = idxs := by simpa using h
      exact List.mem_cons.mpr (Or.inl (Prod.ext_iff.mpr ⟨hb.symm, rfl⟩))
    · exact List.mem_cons_of_mem _ (ih h)

/-- Each bucket produces exactly one log entry carrying the bucket's mesh
indices and the single parent path its search found. -/
theorem assignGroups_log (meshName : Nat → List Char) {sid : Nat} {idxs : List Nat} :
    ∀ (groups : List (Nat × List Nat)) (t : ANode), (sid, idxs) ∈ groups →
      ∃ path, (path, idxs) ∈ (assignGroups meshName t groups).2 := by
  intro groups
  induction groups with
  | nil =>
    intro t h
    simp at h
  | cons g rest ih =>
    intro t h
    simp only [assignGroups]
    rcases List.mem_cons.mp h with rfl | h2
    · exact ⟨(findPath (storeyMatch sid) t).getD [], List.mem_cons_self _ _⟩
    · obtain ⟨path, hp⟩ := ih _ h2
      exact ⟨path, List.mem_cons_of_mem _ hp⟩

/-- Attaching at a path appends the leaves to exactly that node's child
list (names, meshes and previous children untouched). -/
theorem getNodeAt_attachAt_self :
    ∀ (path : List Nat) (t : ANode) (leaves : List ANode) (nm : List Char)
      (ms : List Nat) (cs : List ANode),
      getNodeAt t path = some (.mk nm ms cs) →
      getNodeAt (attachAt t path leaves) path = some (.mk nm ms (cs ++ leaves)) := by
  intro path
  induction path with
  | nil =>
    intro t leaves nm ms cs h
    rw [getNodeAt_nil] at h
    obtain rfl : t = ANode.mk nm ms cs := by simpa using h
    rw [attachAt, getNodeAt_nil]
  | cons i rest ih =>
    intro t leaves nm ms cs h
    cases t with
    | mk n0 ms0 cs0 =>
      rw [getNodeAt_cons] at h
      cases hc : cs0[i]? with
      | none =>
        rw [hc] at h
        exact absurd h (by simp)
      | some c =>
        rw [hc] at h
        rw [attachAt]
        have hlist : ∀ (cs0 : List ANode) (i : Nat), cs0[i]? = some c →
            (attachAtList cs0 i rest leaves)[i]? = some (attachAt c rest leaves) := by
          intro cs0
          induction cs0 with
          | nil =>
            intro i hi
            simp at hi
          | cons c0 cs0 ihc =>
            intro i hi
            cases i with
            | zero =>
              obtain rfl : c0 = c := by simpa using hi
              rw [attachAtList]
              simp
            | succ i =>
              rw [attachAtList]
              simpa using ihc i (by simpa using hi)
        rw [getNodeAt_cons_of_getElem rest (hlist cs0 i hc)]
        exact ih c leaves nm ms cs h

/-- C3 (amended): meshes whose elements the containment map sends to the
same storey expressID land in one shared bucket, which is attached by a
single search-and-append step: one log entry carries both mesh indices and
the one parent path used for both leaves; attaching appends the leaves to
exactly that node's child list. The parent is the node the name-based
search finds, which need not correspond to the mapped storey expressID. -/
theorem C3_same_storey_shared_parent (meshName : Nat → List Char)
    (meta cont : Nat → Option Nat) (n : Nat) (t : ANode) (i j e1 e2 sid : Nat)
    (hi : i < n) (hj : j < n)
    (hm1 : meta i = some e1) (hc1 : cont e1 = some sid)
    (hm2 : meta j = some e2) (hc2 : cont e2 = some sid) :
    (∃ path idxs,
      (path, idxs) ∈ (assignMeshesToHierarchy meshName meta cont n t).2 ∧
      i ∈ idxs ∧ j ∈ idxs) ∧
    (∀ (t2 : ANode) (path : List Nat) (leaves : List ANode) (nm : List Char)
      (ms : List Nat) (cs : List ANode),
      getNodeAt t2 path = some (.mk nm ms cs) →
      getNodeAt (attachAt t2 path leaves) path = some (.mk nm ms (cs ++ leaves))) := by
  constructor
  · have h1 := groupMeshes_mem meta cont hm1 hc1 (List.range n) ([], [])
      (List.mem_range.mpr hi)
    have h2 := groupMeshes_mem meta cont hm2 hc2 (List.range n) ([], [])
      (List.mem_range.mpr hj)
    obtain ⟨idxs, hl, hmi⟩ := h1
    obtain ⟨idxs2, hl2, hmj⟩ := h2
    rw [hl] at hl2
    obtain rfl : idxs = idxs2 := Option.some.inj hl2
    have hmem : (sid, idxs) ∈ (groupMeshes meta cont n).1 := by
      rw [groupMeshes]
      exact lookupBucket_mem hl
    obtain ⟨path, hp⟩ := assignGroups_log meshName (groupMeshes meta cont n).1 t hmem
    refine ⟨path, idxs, ?_, hmi, hmj⟩
    simp only [assignMeshesToHierarchy]
    exact List.mem_append.mpr (Or.inl hp)
  · intro t2 path leaves nm ms cs h
    exact getNodeAt_attachAt_self path t2 leaves nm ms cs h

/-- A concrete model run for C3: two storeys carrying the fallback
`IFC_BuildingStorey_<id>` names, two elements (10 and 11) both contained in
storey 200. -/
def c3Tree : ANode :=
  buildIFCSpatialTree "IFC_Project".toList ["Site".toList] ["Bldg".toList]
    ["IFC_BuildingStorey_100".toList, "IFC_BuildingStorey_200".toList] []

def c3Meta : Nat → Option Nat :=
  fun k => if k = 0 then some 10 else if k = 1 then some 11 else none

def c3Cont : Nat → Option Nat :=
  fun e => if e = 10 then some 200 else if e = 11 then some 200 else none

/-- Counterexample for C3 as stated: both meshes of storey 200 are
attached under the node at path `[0,0,0]` — the storey named
`IFC_BuildingStorey_100` — because `findStoreyByExpressID` returns the
first name-matching node regardless of the target id, while the node
corresponding to the mapped storey expressID 200 sits at path `[0,0,1]`. -/
theorem C3_counterexample :
    (assignMeshesToHierarchy (fun _ => []) c3Meta c3Cont 2 c3Tree).2 =
      [([0, 0, 0], [0, 1]), ([0, 0], [])] ∧
    (getNodeAt c3Tree [0, 0, 0]).map ANode.name = some "IFC_BuildingStorey_100".toList ∧
    (getNodeAt c3Tree [0, 0, 1]).map ANode.name = some "IFC_BuildingStorey_200".toList ∧
    c3Meta 0 = some 10 ∧ c3Cont 10 = some 200 ∧
    c3Meta 1 = some 11 ∧ c3Cont 11 = some 200 ∧
    ([0, 0, 0] : List Nat) ≠ [0, 0, 1] := by
  decide

/-- Witness for C3 (amended) at the same concrete run. -/
theorem C3_witness :
    ∃ path idxs,
      (path, idxs) ∈ (assignMeshesToHierarchy (fun _ => []) c3Meta c3Cont 2 c3Tree).2 ∧
      0 ∈ idxs ∧ 1 ∈ idxs :=
  (C3_same_storey_shared_parent (fun _ => []) c3Meta c3Cont 2 c3Tree 0 1 10 11 200
    (by decide) (by decide) (by decide) (by decide) (by decide) (by decide)).1

end IFC
